import Mathlib

/-!
# fcd: the `eliminatecasts` function pass (`pass_noopcast.cpp`)

A shallow embedding of `NoopCastEliminator` and of the part of the IR it touches:
types, values, cast / element-address / store instructions, basic blocks and functions.

* An IR value is a term: a cast instruction holds its operand, an element-address
  instruction holds its base pointer.  Pointer equality of `Value*` in the source is
  equality of terms here.
* A failed `assert` or `cast<>` is the result `none` of an `Option`-valued function.
* The IR library itself is not part of the repository; the few capabilities the pass
  uses are modelled after the interface the specification lists for it.
-/

namespace Fcd

/-! ## Types -/

mutual
/-- Modelled from the spec: the IR type of a value (the IR library is not part of the
repository).  A pointer type is determined by its pointee, as `pointer-to(V)` in the
specification; address spaces, alignment and type names are not modelled. -/
inductive Ty where
  | void
  | int (bits : Nat)
  | fp (bits : Nat)
  | ptr (pointee : Ty)
  | struct (fields : TyList)
  | array (count : Nat) (elem : Ty)
  | vector (count : Nat) (elem : Ty)
  | func (ret : Ty) (params : TyList)
  deriving DecidableEq
/-- Modelled from the spec: the field list of a structure type (or the parameter list of
a function type). -/
inductive TyList where
  | nil
  | cons (head : Ty) (tail : TyList)
  deriving DecidableEq
end

/-- Field list from a Lean list. -/
def TyList.ofList : List Ty → TyList
  | [] => .nil
  | t :: ts => .cons t (TyList.ofList ts)

/-- Field at a position, when there is one. -/
def TyList.get? : TyList → Nat → Option Ty
  | .nil, _ => none
  | .cons t _, 0 => some t
  | .cons _ ts, n + 1 => TyList.get? ts n

/-- Modelled from the spec: `Type::getPointerTo()`, the pointer type to a type. -/
def Ty.getPointerTo (t : Ty) : Ty := .ptr t

/-- Modelled from the spec: `Type::isPointerTy()`. -/
def Ty.isPointerTy : Ty → Bool
  | .ptr _ => true
  | _ => false

/-- Modelled from the spec: `Type::isSized()` on the types of this model: `void` and
function types have no size. -/
def Ty.isSized : Ty → Bool
  | .void => false
  | .func _ _ => false
  | _ => true

/-- Modelled from the spec: `Type::getPrimitiveSizeInBits()`, the bit width of an integer
or floating-point type (zero for the types whose width depends on the target). -/
def Ty.getPrimitiveSizeInBits : Ty → Nat
  | .int bits => bits
  | .fp bits => bits
  | _ => 0

/-- Modelled from the spec: a constant integer used as an element-address index. -/
structure ConstantInt where
  bits : Nat
  value : Nat
  deriving DecidableEq

/-- Modelled from the spec: one indexing step into an aggregate (`indexValid` followed by
`getTypeAtIndex`): a structure takes a 32-bit constant below its field count, an array or
vector takes any index, nothing else (a pointer included) can be stepped into. -/
def getTypeAtIndex : Ty → ConstantInt → Option Ty
  | .struct fields, idx => if idx.bits = 32 then fields.get? idx.value else none
  | .array _ elem, _ => some elem
  | .vector _ elem, _ => some elem
  | _, _ => none

/-- Modelled from the spec: the indexing steps of all indices after the first. -/
def indexInto : Ty → List ConstantInt → Option Ty
  | agg, [] => some agg
  | agg, idx :: rest =>
    match getTypeAtIndex agg idx with
    | none => none
    | some t => indexInto t rest

/-- Modelled from the spec: `GetElementPtrInst::getIndexedType`, "index into an aggregate
type by a sequence of integer offsets and obtain the resulting type".  The empty index
list is always valid; the first index steps over the (sized) top-level type; every later
index steps into an aggregate.  `none` is the null result. -/
def getIndexedType (agg : Ty) (idxList : List ConstantInt) : Option Ty :=
  match idxList with
  | [] => some agg
  | _ :: rest => if agg.isSized then indexInto agg rest else none

mutual
/-- Number of aggregate levels that can be entered through first elements. -/
def Ty.nesting : Ty → Nat
  | .struct fields => TyList.headNesting fields
  | .array _ elem => Ty.nesting elem + 1
  | .vector _ elem => Ty.nesting elem + 1
  | _ => 0
/-- Nesting through the first field of a field list. -/
def TyList.headNesting : TyList → Nat
  | .nil => 0
  | .cons t _ => Ty.nesting t + 1
end

/-! ## Values and instructions -/

/-- Modelled from the spec: the opcodes of `CastInst`. -/
inductive CastOp where
  | trunc | zext | sext
  | fpToUI | fpToSI | uiToFP | siToFP | fpTrunc | fpExt
  | ptrToInt | intToPtr | bitCast | addrSpaceCast
  deriving DecidableEq

/-- Modelled from the spec: an IR value with its fixed type.  `other` is any value that is
neither a cast instruction nor an element-address instruction (argument, constant, global,
load, ...), told apart by an identifier. -/
inductive Value where
  | other (id : Nat) (ty : Ty)
  | cast (opcode : CastOp) (operand : Value) (ty : Ty)
  | gep (pointer : Value) (indices : List ConstantInt) (ty : Ty)
  deriving DecidableEq

/-- Modelled from the spec: `Value::getType()`. -/
def Value.getType : Value → Ty
  | .other _ ty => ty
  | .cast _ _ ty => ty
  | .gep _ _ ty => ty

/-- Modelled from the spec: an instruction of a basic block: a store, or the instruction
that defines a value (every instruction that is not a store). -/
inductive Instr where
  | store (value pointer : Value)
  | inst (v : Value)
  deriving DecidableEq

/-- Ordered instruction sequence of a basic block. -/
abbrev BasicBlock := List Instr

/-- Ordered basic blocks of a function. -/
abbrev Function := List BasicBlock

/-! ## The pass -/

/-- `NoopCastEliminator::uncastedValue`: walk the operand chain while the value is a cast
instruction, stopping at a `trunc`. -/
def uncastedValue : Value → Value
  | .cast opcode operand ty =>
    if opcode = .trunc then .cast opcode operand ty else uncastedValue operand
  | value => value

/-- The constant `zero` of `gepUpToType`: the null value of `i32`. -/
def zero : ConstantInt := ⟨32, 0⟩

/-- Modelled from the spec: `GetElementPtrInst::Create(nullptr, pointer, gepIndices)` for an
index list whose indexed type is `gepType`: the result type is the pointer to it. -/
def GetElementPtrInst.Create (pointer : Value) (gepIndices : List ConstantInt)
    (gepType : Ty) : Value :=
  .gep pointer gepIndices gepType.getPointerTo

/-- The `while` loop of `gepUpToType` (lines 62-70), entered with the current index list.
`fuel` bounds the number of iterations. -/
def gepUpToType.loop (pointer : Value) (elementType type : Ty) :
    Nat → List ConstantInt → Option Value
  | 0, _ => none
  | fuel + 1, gepIndices =>
    match getIndexedType elementType gepIndices with
    | none => none
    | some gepType =>
      if gepType.getPointerTo = type then
        some (GetElementPtrInst.Create pointer gepIndices gepType)
      else
        gepUpToType.loop pointer elementType type fuel (gepIndices ++ [zero])

/-- `NoopCastEliminator::gepUpToType`.  The outer `none` is a failed `assert` (line 56) or
a failed `cast<PointerType>` (line 57); `some none` is the `nullptr` result.  The loop is
given one iteration per aggregate level of the pointee type plus one, which is as many as
it can make (`gepUpToType_loop_fuel`). -/
def gepUpToType (pointer : Value) (type : Ty) : Option (Option Value) :=
  if type.isPointerTy then
    match pointer.getType with
    | .ptr elementType =>
      some (gepUpToType.loop pointer elementType type (elementType.nesting + 1) [zero])
    | _ => none
  else none

/-- Lines 90-96 of `runOnFunction`: the element-address instruction to insert before the
store, if any.  The outer `none` is an abort inside `gepUpToType`. -/
def synthesize (uncastedStoreValue : Value) (elementType : Ty) : Option (Option Value) :=
  if uncastedStoreValue.getType.getPointerTo ≠ Ty.ptr elementType then
    match elementType with
    | .ptr subPointee => gepUpToType uncastedStoreValue (.ptr subPointee)
    | _ => some none
  else some none

/-- Lines 83-105 of `runOnFunction`, for the store under the cursor: the instructions that
stand in its place afterwards and whether `changed` was set.  `none` is an abort. -/
def visitStore (storeValue pointer : Value) : Option (List Instr × Bool) :=
  let uncastedPointer := uncastedValue pointer
  let uncastedStoreValue := uncastedValue storeValue
  if pointer ≠ uncastedPointer ∧ storeValue ≠ uncastedStoreValue then
    match uncastedPointer.getType with
    | .ptr elementType =>
      match synthesize uncastedStoreValue elementType with
      | none => none
      | some none =>
        if uncastedStoreValue.getType.getPointerTo = Ty.ptr elementType then
          some ([.store uncastedStoreValue uncastedPointer], true)
        else some ([.store storeValue pointer], false)
      | some (some subValue) =>
        if subValue.getType.getPointerTo = Ty.ptr elementType then
          some ([.inst subValue, .store subValue uncastedPointer], true)
        else some ([.inst subValue, .store storeValue pointer], false)
    | _ => some ([.store storeValue pointer], false)
  else some ([.store storeValue pointer], false)

/-- The cursor loop of `runOnFunction` over one block (lines 78-108): `before` is the part
of the block in front of `iter`, the list argument the part from `iter` on. -/
def scanBlock (before : List Instr) (changed : Bool) :
    List Instr → Option (BasicBlock × Bool)
  | [] => some (before, changed)
  | .store storeValue pointer :: rest =>
    match visitStore storeValue pointer with
    | none => none
    | some (placed, c) => scanBlock (before ++ placed) (changed || c) rest
  | .inst v :: rest => scanBlock (before ++ [.inst v]) changed rest

/-- The loop over the blocks of the function (line 76). -/
def scanBlocks (done : List BasicBlock) (changed : Bool) :
    List BasicBlock → Option (Function × Bool)
  | [] => some (done, changed)
  | bb :: rest =>
    match scanBlock [] changed bb with
    | none => none
    | some (bb', changed') => scanBlocks (done ++ [bb']) changed' rest

/-- `NoopCastEliminator::runOnFunction`: the rewritten function and the `changed` signal,
or `none` when an assertion fails. -/
def runOnFunction (fn : Function) : Option (Function × Bool) :=
  scanBlocks [] false fn

/-! ## Vocabulary of the specification -/

/-- The well-formedness condition of a store: the type of the stored value is the pointee
type of the type of the pointer operand. -/
def Instr.wellTyped : Instr → Bool
  | .store value pointer => decide (pointer.getType = Ty.ptr value.getType)
  | .inst _ => true

/-- Every instruction of every block satisfies the store condition. -/
def Function.wellTyped (fn : Function) : Bool :=
  fn.all (fun bb => bb.all Instr.wellTyped)

/-- A cast instruction. -/
def Value.isCast : Value → Bool
  | .cast _ _ _ => true
  | _ => false

/-- A `trunc` cast instruction. -/
def Value.isTrunc : Value → Bool
  | .cast .trunc _ _ => true
  | _ => false

/-- The value-preserving casts of the specification. -/
def CastOp.valuePreserving : CastOp → Bool
  | .ptrToInt => true
  | .intToPtr => true
  | .bitCast => true
  | _ => false

/-- The operand chain of a value: the value, then the operand of each cast in turn. -/
def operandChain : Value → List Value
  | .cast opcode operand ty => .cast opcode operand ty :: operandChain operand
  | value => [value]

/-- An index list of `k` zeros. -/
def zeros (k : Nat) : List ConstantInt := List.replicate k zero

/-! ## The motivating pattern -/

/-- The type `i64`. -/
def i64 : Ty := .int 64
/-- The type `i32`. -/
def i32 : Ty := .int 32
/-- The structure `{ i64, i32, i32* }`. -/
def fooStack : Ty := .struct (TyList.ofList [i64, i32, .ptr i32])
/-- The base pointer `%0`. -/
def base : Value := .other 0 (.ptr fooStack)
/-- The value `%field0 = getelementptr %foo.stack* %0, i64 0, i32 1`. -/
def field0 : Value := .gep base [⟨64, 0⟩, ⟨32, 1⟩] (.ptr i32)
/-- The value `%field1 = getelementptr %foo.stack* %0, i64 0, i32 2`. -/
def field1 : Value := .gep base [⟨64, 0⟩, ⟨32, 2⟩] (.ptr (.ptr i32))
/-- The value `%x = ptrtoint i32* %field0 to i64`. -/
def patX : Value := .cast .ptrToInt field0 i64
/-- The value `%y = bitcast i32** %field1 to i64*`. -/
def patY : Value := .cast .bitCast field1 (.ptr i64)
/-- The block of the pattern comment of `pass_noopcast.cpp`. -/
def patternBlock : BasicBlock :=
  [.inst field0, .inst field1, .inst patX, .inst patY, .store patX patY]

/-- A value-preserving cast instruction: the top of a stack of `N ≥ 1` such casts. -/
def Value.isValuePreservingCast : Value → Bool
  | .cast opcode _ _ => opcode.valuePreserving
  | _ => false

/-! ## Further concrete inputs -/

/-- The argument `i32 %a`. -/
def zextA : Value := .other 0 i32
/-- The argument `i32* %p`. -/
def zextP : Value := .other 1 (.ptr i32)
/-- The value `%x = zext i32 %a to i64`. -/
def zextX : Value := .cast .zext zextA i64
/-- The value `%y = bitcast i32* %p to i64*`. -/
def zextY : Value := .cast .bitCast zextP (.ptr i64)
/-- The block `%x = zext ..; %y = bitcast ..; store i64 %x, i64* %y`. -/
def zextBlock : BasicBlock := [.inst zextX, .inst zextY, .store zextX zextY]

/-- The argument `double %d`. -/
def abortD : Value := .other 0 (.fp 64)
/-- The argument `i32** %p`. -/
def abortP : Value := .other 1 (.ptr (.ptr i32))
/-- The value `%x = bitcast double %d to i64`. -/
def abortX : Value := .cast .bitCast abortD i64
/-- The value `%y = bitcast i32** %p to i64*`. -/
def abortY : Value := .cast .bitCast abortP (.ptr i64)
/-- The block `%x = bitcast ..; %y = bitcast ..; store i64 %x, i64* %y`. -/
def abortBlock : BasicBlock := [.inst abortX, .inst abortY, .store abortX abortY]

/-- The argument `i16 %a`. -/
def sextA : Value := .other 0 (.int 16)
/-- The value `%x = sext i16 %a to i32`. -/
def sextX : Value := .cast .sext sextA i32

/-- The argument `{ i32 }* %s`. -/
def subS : Value := .other 0 (.ptr (.struct (TyList.ofList [i32])))
/-- The argument `i32** %r`. -/
def subR : Value := .other 1 (.ptr (.ptr i32))
/-- The value `%x = ptrtoint { i32 }* %s to i64`. -/
def subX : Value := .cast .ptrToInt subS i64
/-- The value `%y = bitcast i32** %r to i64*`. -/
def subY : Value := .cast .bitCast subR (.ptr i64)
/-- The element address `getelementptr { i32 }* %s, i32 0, i32 0`. -/
def subGep : Value := .gep subS [zero, zero] (.ptr i32)

/-- The argument `i32* %q`. -/
def missQ : Value := .other 0 (.ptr i32)
/-- The argument `float** %r`. -/
def missR : Value := .other 1 (.ptr (.ptr (.fp 32)))
/-- The value `%x = ptrtoint i32* %q to i64`. -/
def missX : Value := .cast .ptrToInt missQ i64
/-- The value `%y = bitcast float** %r to i64*`. -/
def missY : Value := .cast .bitCast missR (.ptr i64)

/-- The argument `i64 %n`. -/
def plainN : Value := .other 2 i64

/-! ## The cursor loop on the block held in place -/

/-- Modelled from the spec: insertion of an instruction into a block in front of the
instruction at position `pos` (`insertBefore`, and the insertion point of the `StoreInst`
constructor). -/
def insertBefore (bb : List Instr) (pos : Nat) (i : Instr) : List Instr :=
  bb.take pos ++ i :: bb.drop pos

/-- Modelled from the spec: `eraseFromParent` of the instruction at position `pos`. -/
def eraseAt (bb : List Instr) (pos : Nat) : List Instr :=
  bb.take pos ++ bb.drop (pos + 1)

/-- One iteration of the `while` loop of lines 79-108 on the block held in place, with the
cursor `iter` a position in the block: the block after the iteration, the cursor after
`++iter`, and whether `changed` was set.  `none` is an abort. -/
def cursorStep (bb : List Instr) (iter : Nat) : Option (List Instr × Nat × Bool) :=
  match bb[iter]? with
  | some (.store storeValue pointer) =>
    let uncastedPointer := uncastedValue pointer
    let uncastedStoreValue := uncastedValue storeValue
    if pointer ≠ uncastedPointer ∧ storeValue ≠ uncastedStoreValue then
      match uncastedPointer.getType with
      | .ptr elementType =>
        match synthesize uncastedStoreValue elementType with
        | none => none
        | some none =>
          if uncastedStoreValue.getType.getPointerTo = Ty.ptr elementType then
            -- `result` goes in front of the store, the store (now at `iter + 1`) is
            -- erased, `iter` is set to `result` and then advanced
            some (eraseAt (insertBefore bb iter (.store uncastedStoreValue uncastedPointer))
                    (iter + 1), iter + 1, true)
          else some (bb, iter + 1, false)
        | some (some subValue) =>
          -- `subValue` goes in front of the store, which is now at `iter + 1`
          if subValue.getType.getPointerTo = Ty.ptr elementType then
            some (eraseAt (insertBefore (insertBefore bb iter (.inst subValue)) (iter + 1)
                    (.store subValue uncastedPointer)) (iter + 2), iter + 2, true)
          else some (insertBefore bb iter (.inst subValue), iter + 2, false)
      | _ => some (bb, iter + 1, false)
    else some (bb, iter + 1, false)
  | _ => some (bb, iter + 1, false)

/-- The `while` loop of lines 79-108 on the block held in place.  `examined` records the
instruction under the cursor at every iteration.  The outer `none` means that the bound
`fuel` on the number of iterations was reached before the cursor reached the end of the
block; the inner `none` is an abort. -/
def cursorLoop : Nat → List Instr → Nat → Bool → List Instr →
    Option (Option (BasicBlock × Bool × List Instr))
  | 0, bb, iter, changed, examined =>
    if iter < bb.length then none else some (some (bb, changed, examined))
  | fuel + 1, bb, iter, changed, examined =>
    if iter < bb.length then
      match cursorStep bb iter with
      | none => some none
      | some (bb', iter', c) =>
        cursorLoop fuel bb' iter' (changed || c) (examined ++ (bb[iter]?).toList)
    else some (some (bb, changed, examined))

/-- The loop over the blocks (line 76) with every block held in place; a block is given as
many iterations as it has instructions on entry. -/
def runInPlace : List BasicBlock → Bool → Option (Option (Function × Bool))
  | [], changed => some (some ([], changed))
  | bb :: rest, changed =>
    match cursorLoop bb.length bb 0 changed [] with
    | none => none
    | some none => some none
    | some (some (bb', changed', _)) =>
      match runInPlace rest changed' with
      | none => none
      | some none => some none
      | some (some (fn', c)) => some (some (bb' :: fn', c))

/-! ## The loops with their iterations counted -/

/-- The `while` loop of `uncastedValue` (lines 43-50) with a bound on its iterations:
`none` means that the bound was reached while the loop condition still held. -/
def uncastedValue.loop : Nat → Value → Option Value
  | 0, .cast opcode operand ty =>
    if opcode = .trunc then some (.cast opcode operand ty) else none
  | fuel + 1, .cast opcode operand ty =>
    if opcode = .trunc then some (.cast opcode operand ty)
    else uncastedValue.loop fuel operand
  | _, value => some value

/-- The `while` loop of `gepUpToType` (lines 62-70) together with the number of times its
body was entered. -/
def gepUpToType.counted (pointer : Value) (elementType type : Ty) :
    Nat → List ConstantInt → Option Value × Nat
  | 0, _ => (none, 0)
  | fuel + 1, gepIndices =>
    match getIndexedType elementType gepIndices with
    | none => (none, 0)
    | some gepType =>
      if gepType.getPointerTo = type then
        (some (GetElementPtrInst.Create pointer gepIndices gepType), 1)
      else
        ((gepUpToType.counted pointer elementType type fuel (gepIndices ++ [zero])).1,
         (gepUpToType.counted pointer elementType type fuel (gepIndices ++ [zero])).2 + 1)

/-! ## The iteration discipline of the specification -/

/-- What stands in the place of an instruction once the cursor has passed it: a store is
visited, any other instruction is left as it is. -/
def visit : Instr → Option (List Instr × Bool)
  | .store storeValue pointer => visitStore storeValue pointer
  | .inst v => some ([.inst v], false)

/-- The pure function of the specification's iteration discipline: every instruction of
the block is mapped, in order, to what stands in its place, and the results are
concatenated; `changed` is set when it is set for one of them. -/
def mapConcat : List Instr → Option (BasicBlock × Bool)
  | [] => some ([], false)
  | i :: rest =>
    match visit i with
    | none => none
    | some (placed, c) =>
      match mapConcat rest with
      | none => none
      | some (out, c') => some (placed ++ out, c || c')

/-- A store that the run replaces: its visit sets `changed`. -/
def Instr.isReplaced (i : Instr) : Bool :=
  match visit i with
  | some (_, true) => true
  | _ => false

/-! ## The AST pass `AstBranchCombine` (`ast/pass_branchcombine.h`) -/

mutual
/-- Modelled from the spec: a statement of the AST (the statement classes of `pass.h` are
not in the repository).  `other` is any leaf statement, atomic for the pass; a condition
is opaque and stands as an identifier.  The empty statement is the empty sequence: the
specification speaks of children that "reduce to an empty `Sequence`". -/
inductive Statement where
  | other (id : Nat)
  | sequence (children : StatementList)
  | ifElse (cond : Nat) (ifBody : Statement) (elseBody : ElseBranch)
  deriving DecidableEq
/-- Modelled from the spec: the ordered children of a sequence. -/
inductive StatementList where
  | nil
  | cons (head : Statement) (tail : StatementList)
  deriving DecidableEq
/-- Modelled from the spec: the optional "else" statement of an `IfElse`. -/
inductive ElseBranch where
  | absent
  | present (body : Statement)
  deriving DecidableEq
end

/-- Modelled from the spec: the function node, owner of one root statement. -/
structure FunctionNode where
  body : Statement
  deriving DecidableEq

/-- Children from a Lean list. -/
def StatementList.ofList : List Statement → StatementList
  | [] => .nil
  | s :: rest => .cons s (StatementList.ofList rest)

/-- Concatenation of children. -/
def StatementList.append : StatementList → StatementList → StatementList
  | .nil, l => l
  | .cons s rest, l => .cons s (StatementList.append rest l)

/-- Number of children. -/
def StatementList.length : StatementList → Nat
  | .nil => 0
  | .cons _ rest => StatementList.length rest + 1

/-- Modelled from the spec: the empty statement. -/
def Statement.isEmpty : Statement → Bool
  | .sequence .nil => true
  | _ => false

/-- Modelled from the spec: an "else" branch that is absent or empty. -/
def ElseBranch.isEmpty : ElseBranch → Bool
  | .absent => true
  | .present s => s.isEmpty

/-- Modelled from the spec: step 2 of `combineBranches(Sequence)`, "if a child is itself a
`Sequence`, splice that child's children into the parent's list at its position"; a child
that is an empty sequence leaves nothing. -/
def flattenChildren : StatementList → StatementList
  | .nil => .nil
  | .cons (.sequence cs) rest => cs.append (flattenChildren rest)
  | .cons s rest => .cons s (flattenChildren rest)

/-- Modelled from the spec: step 3 of `combineBranches(Sequence)`, "if after flattening
the sequence contains exactly one child, replace the `Sequence` node itself with that
single child; if it contains zero children, replace it with an explicit empty/no-op
statement". -/
def collapse : StatementList → Statement
  | .nil => .sequence .nil
  | .cons s .nil => s
  | l => .sequence l

/-- Modelled from the spec: `AstBranchCombine::combineBranches(SequenceNode*)`
(`pass_branchcombine.cpp` is not in the repository), on the children already combined:
flatten, then collapse. -/
def combineSequence (children : StatementList) : Statement :=
  collapse (flattenChildren children)

/-- Modelled from the spec: `AstBranchCombine::combineBranches(IfElseNode*)`
(`pass_branchcombine.cpp` is not in the repository), on the branches already combined:
"if both branches are structurally equivalent, replace the whole node with just one
branch; if both branches are empty, drop the node entirely"; otherwise the node stays,
with its "else" nested as it is. -/
def combineIfElse (cond : Nat) (ifBody : Statement) (elseBody : ElseBranch) : Statement :=
  if elseBody = .present ifBody then ifBody
  else if ifBody.isEmpty ∧ elseBody.isEmpty then .sequence .nil
  else .ifElse cond ifBody elseBody

mutual
/-- Modelled from the spec: `AstBranchCombine::combineBranches(Statement*)`
(`pass_branchcombine.cpp` is not in the repository): the dispatch by variant, children
combined before their parent; a variant without a rule is returned unchanged. -/
def combineBranches : Statement → Statement
  | .other id => .other id
  | .sequence children => combineSequence (combineChildren children)
  | .ifElse cond ifBody elseBody =>
    combineIfElse cond (combineBranches ifBody) (combineElse elseBody)
/-- Modelled from the spec: "recursively combine every child first, replacing each child
in place with its combined result". -/
def combineChildren : StatementList → StatementList
  | .nil => .nil
  | .cons s rest => .cons (combineBranches s) (combineChildren rest)
/-- Modelled from the spec: "recursively combine the then branch and, if present, the
else branch". -/
def combineElse : ElseBranch → ElseBranch
  | .absent => .absent
  | .present s => .present (combineBranches s)
end

/-- Modelled from the spec: `AstBranchCombine::doRun` (`pass_branchcombine.cpp` is not in
the repository): the root statement of the function is replaced by its combined form. -/
def doRun (fn : FunctionNode) : FunctionNode :=
  { body := combineBranches fn.body }

/-- No child is a sequence. -/
def StatementList.noSequence : StatementList → Bool
  | .nil => true
  | .cons (.sequence _) _ => false
  | .cons _ rest => StatementList.noSequence rest

mutual
/-- A statement on which no rule of the pass applies any more. -/
def Statement.isCombined : Statement → Bool
  | .other _ => true
  | .sequence cs =>
    StatementList.isCombined cs && (cs.noSequence && decide (cs.length ≠ 1))
  | .ifElse _ t e =>
    Statement.isCombined t && (ElseBranch.isCombined e
      && (decide (e ≠ .present t) && !(t.isEmpty && e.isEmpty)))
/-- Children on which no rule of the pass applies any more. -/
def StatementList.isCombined : StatementList → Bool
  | .nil => true
  | .cons s rest => Statement.isCombined s && StatementList.isCombined rest
/-- An "else" branch on which no rule of the pass applies any more. -/
def ElseBranch.isCombined : ElseBranch → Bool
  | .absent => true
  | .present s => Statement.isCombined s
end

mutual
/-- The statement contains an `IfElse` node. -/
def Statement.hasIfElse : Statement → Bool
  | .other _ => false
  | .sequence cs => StatementList.hasIfElse cs
  | .ifElse _ _ _ => true
/-- One of the children contains an `IfElse` node. -/
def StatementList.hasIfElse : StatementList → Bool
  | .nil => false
  | .cons s rest => Statement.hasIfElse s || StatementList.hasIfElse rest
end

mutual
/-- The statement contains an `IfElse` node on the condition `c`. -/
def Statement.usesCond (c : Nat) : Statement → Bool
  | .other _ => false
  | .sequence cs => StatementList.usesCond c cs
  | .ifElse cond t e =>
    decide (cond = c) || (Statement.usesCond c t || ElseBranch.usesCond c e)
/-- One of the children contains an `IfElse` node on the condition `c`. -/
def StatementList.usesCond (c : Nat) : StatementList → Bool
  | .nil => false
  | .cons s rest => Statement.usesCond c s || StatementList.usesCond c rest
/-- The "else" branch contains an `IfElse` node on the condition `c`. -/
def ElseBranch.usesCond (c : Nat) : ElseBranch → Bool
  | .absent => false
  | .present s => Statement.usesCond c s
end

/-- The statement `if (c7) s1 else s2`. -/
def dedupInner : Statement := .ifElse 7 (.other 1) (.present (.other 2))
/-- The statement `if (c7) { if (c7) s1 else s2 } else { if (c7) s1 else s2 }`. -/
def dedupOuter : Statement := .ifElse 7 dedupInner (.present dedupInner)
/-- The statement `{ { s1; s2 }; { s3 } }`. -/
def nestedSequence : Statement :=
  .sequence (StatementList.ofList
    [.sequence (StatementList.ofList [.other 1, .other 2]),
     .sequence (StatementList.ofList [.other 3])])

/-- The argument `i64 %n`. -/
def noPtrN : Value := .other 0 i64
/-- The argument `i32*** %p`. -/
def noPtrP : Value := .other 1 (.ptr (.ptr (.ptr i32)))
/-- The value `%x = inttoptr i64 %n to i8*`. -/
def noPtrX : Value := .cast .intToPtr noPtrN (.ptr (.int 8))
/-- The value `%y = bitcast i32*** %p to i8**`. -/
def noPtrY : Value := .cast .bitCast noPtrP (.ptr (.ptr (.int 8)))
/-- The block `%x = inttoptr ..; %y = bitcast ..; store i8* %x, i8** %y`. -/
def noPtrBlock : BasicBlock := [.inst noPtrX, .inst noPtrY, .store noPtrX noPtrY]

mutual
/-- The `IfElse` nodes of a statement, each counted with the weight `w` of its
condition. -/
def Statement.weigh (w : Nat → Nat) : Statement → Nat
  | .other _ => 0
  | .sequence cs => StatementList.weigh w cs
  | .ifElse cond t e => w cond + (Statement.weigh w t + ElseBranch.weigh w e)
/-- The `IfElse` nodes of the children, weighted. -/
def StatementList.weigh (w : Nat → Nat) : StatementList → Nat
  | .nil => 0
  | .cons s rest => Statement.weigh w s + StatementList.weigh w rest
/-- The `IfElse` nodes of the "else" branch, weighted. -/
def ElseBranch.weigh (w : Nat → Nat) : ElseBranch → Nat
  | .absent => 0
  | .present s => Statement.weigh w s
end

/-- The number of `IfElse` nodes of a statement. -/
def Statement.ifElseCount (s : Statement) : Nat := s.weigh (fun _ => 1)

/-- The number of `IfElse` nodes of a statement that are on the condition `c`. -/
def Statement.condCount (c : Nat) (s : Statement) : Nat :=
  s.weigh (fun cond => if cond = c then 1 else 0)

/-! ## Lemmas on types and indexing -/

theorem zeros_succ (k : Nat) : zeros k ++ [zero] = zeros (k + 1) := by
  unfold zeros
  rw [List.replicate_succ']

theorem zeros_one : zeros 1 = [zero] := rfl

theorem getTypeAtIndex_nesting {agg t : Ty} {idx : ConstantInt}
    (h : getTypeAtIndex agg idx = some t) (hidx : idx = zero) :
    agg.nesting = t.nesting + 1 := by
  subst hidx
  cases agg with
  | struct fields =>
    cases fields with
    | nil => simp [getTypeAtIndex, zero, TyList.get?] at h
    | cons hd tl =>
      simp [getTypeAtIndex, zero, TyList.get?] at h
      subst h
      simp [Ty.nesting, TyList.headNesting]
  | array n e =>
    simp [getTypeAtIndex] at h
    subst h
    simp [Ty.nesting]
  | vector n e =>
    simp [getTypeAtIndex] at h
    subst h
    simp [Ty.nesting]
  | void => simp [getTypeAtIndex] at h
  | int b => simp [getTypeAtIndex] at h
  | fp b => simp [getTypeAtIndex] at h
  | ptr q => simp [getTypeAtIndex] at h
  | func r ps => simp [getTypeAtIndex] at h

theorem indexInto_zeros_le_nesting (m : Nat) :
    ∀ (agg t : Ty), indexInto agg (zeros m) = some t → m ≤ agg.nesting := by
  induction m with
  | zero => intro agg t _; exact Nat.zero_le _
  | succ m ih =>
    intro agg t h
    have hz : zeros (m + 1) = zero :: zeros m := rfl
    rw [hz, indexInto] at h
    cases hstep : getTypeAtIndex agg zero with
    | none => simp [hstep] at h
    | some t' =>
      simp only [hstep] at h
      have h1 := ih t' t h
      have h2 := getTypeAtIndex_nesting hstep rfl
      omega

/-- An index list of `k` zeros that indexes the pointee type has at most one zero more than
the pointee type has aggregate levels. -/
theorem getIndexedType_zeros_le_nesting {agg t : Ty} {k : Nat}
    (h : getIndexedType agg (zeros k) = some t) : k ≤ agg.nesting + 1 := by
  cases k with
  | zero => exact Nat.zero_le _
  | succ m =>
    have hz : zeros (m + 1) = zero :: zeros m := rfl
    rw [hz] at h
    simp only [getIndexedType] at h
    by_cases hs : agg.isSized = true
    · rw [if_pos hs] at h
      have := indexInto_zeros_le_nesting m agg t h
      omega
    · rw [if_neg hs] at h
      exact absurd h (by simp)

theorem indexInto_append_some (l₁ : List ConstantInt) :
    ∀ (l₂ : List ConstantInt) (agg t : Ty), indexInto agg (l₁ ++ l₂) = some t →
      ∃ u, indexInto agg l₁ = some u := by
  induction l₁ with
  | nil => intro l₂ agg t _; exact ⟨agg, rfl⟩
  | cons i l₁ ih =>
    intro l₂ agg t h
    rw [List.cons_append, indexInto] at h
    rw [indexInto]
    cases hstep : getTypeAtIndex agg i with
    | none => simp [hstep] at h
    | some t' =>
      simp only [hstep] at h
      exact ih l₂ t' t h

/-- Indexing is closed under shortening a list of zeros: if `k + 1` zeros index the type,
so do `k` zeros (for `k ≥ 1`). -/
theorem getIndexedType_zeros_pred {agg t : Ty} {k : Nat} (hk : 1 ≤ k)
    (h : getIndexedType agg (zeros (k + 1)) = some t) :
    ∃ u, getIndexedType agg (zeros k) = some u := by
  obtain ⟨m, rfl⟩ : ∃ m, k = m + 1 := ⟨k - 1, by omega⟩
  have hz : zeros (m + 1 + 1) = zero :: (zeros m ++ [zero]) := by
    rw [zeros_succ]; rfl
  have hz' : zeros (m + 1) = zero :: zeros m := rfl
  rw [hz] at h
  rw [hz']
  simp only [getIndexedType] at h ⊢
  by_cases hs : agg.isSized = true
  · rw [if_pos hs] at h ⊢
    exact indexInto_append_some _ _ _ _ h
  · rw [if_neg hs] at h
    exact absurd h (by simp)

theorem getIndexedType_zeros_mono {agg t : Ty} {k : Nat}
    (h : getIndexedType agg (zeros k) = some t) :
    ∀ j, 1 ≤ j → j ≤ k → ∃ u, getIndexedType agg (zeros j) = some u := by
  induction k generalizing t with
  | zero => intro j h1 h2; omega
  | succ k ih =>
    intro j h1 h2
    by_cases hj : j = k + 1
    · subst hj; exact ⟨t, h⟩
    · have hk : 1 ≤ k := by omega
      obtain ⟨u, hu⟩ := getIndexedType_zeros_pred hk h
      exact ih hu j h1 (by omega)

/-! ## Lemmas on `gepUpToType` -/

/-- What the loop returns is an element address over a list of zeros that indexes the
pointee type to a type whose pointer type is the requested one, and no shorter list that
the loop tried does. -/
theorem gepUpToType_loop_sound (pointer : Value) (elementType type : Ty) (fuel : Nat) :
    ∀ (j : Nat) (g : Value),
      gepUpToType.loop pointer elementType type fuel (zeros j) = some g →
      ∃ k t, j ≤ k ∧ g = Value.gep pointer (zeros k) type
        ∧ getIndexedType elementType (zeros k) = some t ∧ t.getPointerTo = type
        ∧ ∀ i, j ≤ i → i < k → ∀ u, getIndexedType elementType (zeros i) = some u →
            u.getPointerTo ≠ type := by
  induction fuel with
  | zero => intro j g h; simp [gepUpToType.loop] at h
  | succ fuel ih =>
    intro j g h
    rw [gepUpToType.loop] at h
    cases hidx : getIndexedType elementType (zeros j) with
    | none => simp [hidx] at h
    | some gepType =>
      simp only [hidx] at h
      by_cases hm : gepType.getPointerTo = type
      · rw [if_pos hm] at h
        refine ⟨j, gepType, le_refl _, ?_, hidx, hm, ?_⟩
        · have := Option.some.inj h
          rw [← this, GetElementPtrInst.Create, hm]
        · intro i h1 h2; omega
      · rw [if_neg hm, zeros_succ] at h
        obtain ⟨k, t, hjk, hg, hk, ht, hmin⟩ := ih (j + 1) g h
        refine ⟨k, t, by omega, hg, hk, ht, ?_⟩
        intro i h1 h2 u hu
        by_cases hij : i = j
        · subst hij
          rw [hidx] at hu
          have := Option.some.inj hu
          subst this
          exact hm
        · exact hmin i (by omega) h2 u hu

/-- With enough iterations left the loop finds a matching list of zeros when there is
one. -/
theorem gepUpToType_loop_complete (pointer : Value) (elementType type : Ty) (fuel : Nat) :
    ∀ (j k : Nat) (t : Ty), 1 ≤ j → j ≤ k → k < j + fuel →
      getIndexedType elementType (zeros k) = some t → t.getPointerTo = type →
      ∃ g, gepUpToType.loop pointer elementType type fuel (zeros j) = some g := by
  induction fuel with
  | zero => intro j k t h1 h2 h3; omega
  | succ fuel ih =>
    intro j k t h1 h2 h3 hk ht
    obtain ⟨u, hu⟩ := getIndexedType_zeros_mono hk j h1 h2
    rw [gepUpToType.loop]
    simp only [hu]
    by_cases hm : u.getPointerTo = type
    · rw [if_pos hm]; exact ⟨_, rfl⟩
    · rw [if_neg hm, zeros_succ]
      have hjk : j ≠ k := by
        intro e
        subst e
        rw [hk] at hu
        have := Option.some.inj hu
        subst this
        exact hm ht
      exact ih (j + 1) k t (by omega) (by omega) (by omega) hk ht

/-- The iteration bound given to the loop is never what ends it: with any larger bound
the loop returns the same result. -/
theorem gepUpToType_loop_fuel (pointer : Value) (elementType type : Ty) (extra : Nat) :
    gepUpToType.loop pointer elementType type (elementType.nesting + 1 + extra) [zero]
      = gepUpToType.loop pointer elementType type (elementType.nesting + 1) [zero] := by
  rw [← zeros_one]
  cases h1 : gepUpToType.loop pointer elementType type (elementType.nesting + 1 + extra)
      (zeros 1) with
  | none =>
    cases h2 : gepUpToType.loop pointer elementType type (elementType.nesting + 1)
        (zeros 1) with
    | none => rfl
    | some g =>
      obtain ⟨k, t, hjk, _, hk, ht, _⟩ := gepUpToType_loop_sound _ _ _ _ _ _ h2
      have hb := getIndexedType_zeros_le_nesting hk
      obtain ⟨g', hg'⟩ := gepUpToType_loop_complete pointer elementType type
        (elementType.nesting + 1 + extra) 1 k t (le_refl _) hjk (by omega) hk ht
      rw [h1] at hg'
      exact absurd hg' (by simp)
  | some g =>
    obtain ⟨k, t, hjk, hg, hk, ht, hmin⟩ := gepUpToType_loop_sound _ _ _ _ _ _ h1
    have hb := getIndexedType_zeros_le_nesting hk
    obtain ⟨g', hg'⟩ := gepUpToType_loop_complete pointer elementType type
      (elementType.nesting + 1) 1 k t (le_refl _) hjk (by omega) hk ht
    obtain ⟨k', t', hjk', hg'', hk', ht', hmin'⟩ := gepUpToType_loop_sound _ _ _ _ _ _ hg'
    rw [hg']
    have hkk : k = k' := by
      rcases Nat.lt_trichotomy k k' with hlt | heq | hgt
      · exact absurd ht (hmin' k hjk hlt t hk)
      · exact heq
      · exact absurd ht' (hmin k' hjk' hgt t' hk')
    rw [hg, hg'', hkk]

/-- A non-null result of `gepUpToType` is an element address rooted at the pointer, over
`k ≥ 1` zeros, of the requested type; `k` zeros index the pointee type to a type whose
pointer type is the requested one, and no shorter list of zeros does. -/
theorem gepUpToType_some {pointer : Value} {type : Ty} {g : Value}
    (h : gepUpToType pointer type = some (some g)) :
    ∃ elementType k t, pointer.getType = Ty.ptr elementType ∧ 1 ≤ k
      ∧ g = Value.gep pointer (zeros k) type
      ∧ getIndexedType elementType (zeros k) = some t ∧ t.getPointerTo = type
      ∧ ∀ i, 1 ≤ i → i < k → ∀ u, getIndexedType elementType (zeros i) = some u →
          u.getPointerTo ≠ type := by
  unfold gepUpToType at h
  by_cases hp : type.isPointerTy = true
  · rw [if_pos hp] at h
    cases hty : pointer.getType with
    | ptr elementType =>
      simp only [hty] at h
      have h' := Option.some.inj h
      rw [← zeros_one] at h'
      obtain ⟨k, t, hjk, hg, hk, ht, hmin⟩ := gepUpToType_loop_sound _ _ _ _ _ _ h'
      exact ⟨elementType, k, t, rfl, hjk, hg, hk, ht, hmin⟩
    | void => simp [hty] at h
    | int b => simp [hty] at h
    | fp b => simp [hty] at h
    | struct fs => simp [hty] at h
    | array n e => simp [hty] at h
    | vector n e => simp [hty] at h
    | func r ps => simp [hty] at h
  · rw [if_neg hp] at h
    exact absurd h (by simp)

/-- On a pointer-typed value and a pointer type, `gepUpToType` returns (it does not
abort), and it returns an instruction whenever some list of `k ≥ 1` zeros matches. -/
theorem gepUpToType_complete {pointer : Value} {elementType type t : Ty} {k : Nat}
    (hty : pointer.getType = Ty.ptr elementType) (hp : type.isPointerTy = true)
    (hk1 : 1 ≤ k) (hk : getIndexedType elementType (zeros k) = some t)
    (ht : t.getPointerTo = type) :
    ∃ g, gepUpToType pointer type = some (some g) := by
  unfold gepUpToType
  rw [if_pos hp]
  simp only [hty]
  have hb := getIndexedType_zeros_le_nesting hk
  obtain ⟨g, hg⟩ := gepUpToType_loop_complete pointer elementType type
    (elementType.nesting + 1) 1 k t (le_refl _) hk1 (by omega) hk ht
  rw [zeros_one] at hg
  exact ⟨g, by rw [hg]⟩

/-- On a pointer-typed value and a pointer type, `gepUpToType` returns null when no list
of `k ≥ 1` zeros matches. -/
theorem gepUpToType_null {pointer : Value} {elementType type : Ty}
    (hty : pointer.getType = Ty.ptr elementType) (hp : type.isPointerTy = true)
    (hno : ∀ k t, 1 ≤ k → getIndexedType elementType (zeros k) = some t →
      t.getPointerTo ≠ type) :
    gepUpToType pointer type = some none := by
  cases h : gepUpToType pointer type with
  | none =>
    unfold gepUpToType at h
    rw [if_pos hp] at h
    simp [hty] at h
  | some r =>
    cases r with
    | none => rfl
    | some g =>
      obtain ⟨e, k, t, hty', hk1, _, hk, ht, _⟩ := gepUpToType_some h
      rw [hty] at hty'
      have := Ty.ptr.inj hty'
      subst this
      exact absurd ht (hno k t hk1 hk)

/-! ## Lemmas on `uncastedValue` -/

theorem uncastedValue_sizeOf_le (v : Value) : sizeOf (uncastedValue v) ≤ sizeOf v := by
  induction v with
  | other id ty => simp [uncastedValue]
  | gep q idx ty _ => simp [uncastedValue]
  | cast op x ty ih =>
    rw [uncastedValue]
    by_cases h : op = CastOp.trunc
    · rw [if_pos h]
    · rw [if_neg h]
      have : sizeOf (Value.cast op x ty) = 1 + sizeOf op + sizeOf x + sizeOf ty := rfl
      omega

/-- A cast other than `trunc` is never its own uncasted value. -/
theorem uncastedValue_ne_of_cast {op : CastOp} (x : Value) (ty : Ty)
    (h : op ≠ CastOp.trunc) : Value.cast op x ty ≠ uncastedValue (Value.cast op x ty) := by
  intro e
  have h1 := uncastedValue_sizeOf_le x
  have h2 : uncastedValue (Value.cast op x ty) = uncastedValue x := by
    rw [uncastedValue, if_neg h]
  rw [h2] at e
  have h3 : sizeOf (Value.cast op x ty) = 1 + sizeOf op + sizeOf x + sizeOf ty := rfl
  rw [← e] at h1
  omega

/-- The walk is the identity exactly on the values that are not a cast or are a
`trunc`. -/
theorem uncastedValue_eq_self_iff (v : Value) :
    uncastedValue v = v ↔ (v.isCast = false ∨ v.isTrunc = true) := by
  cases v with
  | other id ty => simp [uncastedValue, Value.isCast]
  | gep q idx ty => simp [uncastedValue, Value.isCast]
  | cast op x ty =>
    by_cases h : op = CastOp.trunc
    · subst h
      simp [uncastedValue, Value.isTrunc]
    · constructor
      · intro e
        exact absurd e.symm (uncastedValue_ne_of_cast x ty h)
      · intro e
        rcases e with e | e
        · simp [Value.isCast] at e
        · cases op <;> simp [Value.isTrunc] at e h

/-- The walk ends on a value that is not a cast, or on a `trunc`. -/
theorem uncastedValue_result (v : Value) :
    (uncastedValue v).isCast = false ∨ (uncastedValue v).isTrunc = true := by
  induction v with
  | other id ty => left; rfl
  | gep q idx ty _ => left; rfl
  | cast op x ty ih =>
    rw [uncastedValue]
    by_cases h : op = CastOp.trunc
    · rw [if_pos h]; subst h; right; rfl
    · rw [if_neg h]; exact ih

/-- The uncasted value lies on the operand chain, and everything in front of it on the
chain is a cast other than `trunc`. -/
theorem uncastedValue_chain (v : Value) :
    ∃ skipped below, operandChain v = skipped ++ uncastedValue v :: below
      ∧ ∀ u ∈ skipped, ∃ op x ty, u = Value.cast op x ty ∧ op ≠ CastOp.trunc := by
  induction v with
  | other id ty => exact ⟨[], [], rfl, by simp⟩
  | gep q idx ty _ => exact ⟨[], [], rfl, by simp⟩
  | cast op x ty ih =>
    by_cases h : op = CastOp.trunc
    · refine ⟨[], operandChain x, ?_, by simp⟩
      rw [uncastedValue, if_pos h]
      rfl
    · obtain ⟨skipped, below, hc, hs⟩ := ih
      refine ⟨Value.cast op x ty :: skipped, below, ?_, ?_⟩
      · rw [uncastedValue, if_neg h, operandChain, hc]
        rfl
      · intro u hu
        rcases List.mem_cons.mp hu with e | e
        · exact ⟨op, x, ty, e, h⟩
        · exact hs u e

/-! ## Lemmas on the scan -/

/-- The scan of a block does not depend on what is in front of the cursor: the part in
front is kept and `changed` only accumulates. -/
theorem scanBlock_acc (l : List Instr) :
    ∀ (before : List Instr) (changed : Bool),
      scanBlock before changed l
        = (scanBlock [] false l).bind (fun r => some (before ++ r.1, changed || r.2)) := by
  induction l with
  | nil => intro before changed; simp [scanBlock]
  | cons i rest ih =>
    intro before changed
    cases i with
    | inst v =>
      rw [scanBlock, ih, scanBlock, ih ([] ++ [Instr.inst v]) false]
      cases scanBlock [] false rest with
      | none => rfl
      | some r => simp
    | store sv q =>
      rw [scanBlock, scanBlock]
      cases visitStore sv q with
      | none => rfl
      | some pc =>
        obtain ⟨placed, c⟩ := pc
        simp only []
        rw [ih (before ++ placed) (changed || c), ih ([] ++ placed) (false || c)]
        cases scanBlock [] false rest with
        | none => rfl
        | some r => simp [Bool.or_assoc]

theorem scanBlock_append (l₁ l₂ : List Instr) :
    scanBlock [] false (l₁ ++ l₂)
      = (scanBlock [] false l₁).bind (fun r₁ =>
          (scanBlock [] false l₂).bind (fun r₂ => some (r₁.1 ++ r₂.1, r₁.2 || r₂.2))) := by
  induction l₁ with
  | nil =>
    simp only [List.nil_append, scanBlock, Option.some_bind, Bool.false_or]
    cases scanBlock [] false l₂ with
    | none => rfl
    | some r => simp
  | cons i rest ih =>
    cases i with
    | inst v =>
      rw [List.cons_append, scanBlock, scanBlock, scanBlock_acc (rest ++ l₂),
        scanBlock_acc rest, ih]
      cases scanBlock [] false rest with
      | none => rfl
      | some r₁ =>
        cases scanBlock [] false l₂ with
        | none => rfl
        | some r₂ => simp
    | store sv q =>
      rw [List.cons_append, scanBlock, scanBlock]
      cases visitStore sv q with
      | none => rfl
      | some pc =>
        obtain ⟨placed, c⟩ := pc
        simp only []
        rw [scanBlock_acc (rest ++ l₂), scanBlock_acc rest, ih]
        cases scanBlock [] false rest with
        | none => rfl
        | some r₁ =>
          cases scanBlock [] false l₂ with
          | none => rfl
          | some r₂ => simp [Bool.or_assoc]

theorem scanBlock_store (sv q : Value) (post : List Instr) :
    scanBlock [] false (Instr.store sv q :: post)
      = (visitStore sv q).bind (fun r₁ =>
          (scanBlock [] false post).bind (fun r₂ => some (r₁.1 ++ r₂.1, r₁.2 || r₂.2))) := by
  rw [scanBlock]
  cases visitStore sv q with
  | none => rfl
  | some pc =>
    obtain ⟨placed, c⟩ := pc
    simp only []
    rw [scanBlock_acc]
    cases scanBlock [] false post with
    | none => rfl
    | some r => simp

/-- The scan of a block around one of its stores: the scan returns exactly when the scans
of the two sides and the visit of the store do, and it returns their results in order. -/
theorem scanBlock_around (pre post : List Instr) (sv q : Value) (out : BasicBlock)
    (c : Bool) :
    scanBlock [] false (pre ++ Instr.store sv q :: post) = some (out, c) ↔
      ∃ pre' c₁ placed c₂ post' c₃,
        scanBlock [] false pre = some (pre', c₁) ∧ visitStore sv q = some (placed, c₂)
        ∧ scanBlock [] false post = some (post', c₃)
        ∧ out = pre' ++ placed ++ post' ∧ c = (c₁ || c₂ || c₃) := by
  rw [scanBlock_append, scanBlock_store]
  cases h1 : scanBlock [] false pre with
  | none => simp
  | some r₁ =>
    cases h2 : visitStore sv q with
    | none => simp
    | some r₂ =>
      cases h3 : scanBlock [] false post with
      | none => simp
      | some r₃ =>
        obtain ⟨a₁, b₁⟩ := r₁
        obtain ⟨a₂, b₂⟩ := r₂
        obtain ⟨a₃, b₃⟩ := r₃
        simp only [Option.some_bind, Option.some.injEq, Prod.mk.injEq]
        constructor
        · rintro ⟨rfl, rfl⟩
          exact ⟨a₁, b₁, a₂, b₂, a₃, b₃, ⟨rfl, rfl⟩, ⟨rfl, rfl⟩, ⟨rfl, rfl⟩,
            by simp, by simp [Bool.or_assoc]⟩
        · rintro ⟨_, _, _, _, _, _, ⟨rfl, rfl⟩, ⟨rfl, rfl⟩, ⟨rfl, rfl⟩, rfl, rfl⟩
          exact ⟨by simp, by simp [Bool.or_assoc]⟩

theorem scanBlocks_acc (l : List BasicBlock) :
    ∀ (done : List BasicBlock) (changed : Bool),
      scanBlocks done changed l
        = (scanBlocks [] false l).bind (fun r => some (done ++ r.1, changed || r.2)) := by
  induction l with
  | nil => intro done changed; simp [scanBlocks]
  | cons bb rest ih =>
    intro done changed
    rw [scanBlocks, scanBlocks, scanBlock_acc bb [] changed]
    cases scanBlock [] false bb with
    | none => rfl
    | some r =>
      obtain ⟨bb', c⟩ := r
      simp only [Option.some_bind, List.nil_append]
      rw [ih (done ++ [bb']) (changed || c), ih [bb'] c]
      cases scanBlocks [] false rest with
      | none => rfl
      | some r => simp [Bool.or_assoc]

theorem runOnFunction_cons (bb : BasicBlock) (rest : List BasicBlock) :
    runOnFunction (bb :: rest)
      = (scanBlock [] false bb).bind (fun r₁ =>
          (runOnFunction rest).bind (fun r₂ => some (r₁.1 :: r₂.1, r₁.2 || r₂.2))) := by
  unfold runOnFunction
  rw [scanBlocks]
  cases scanBlock [] false bb with
  | none => rfl
  | some r =>
    obtain ⟨bb', c⟩ := r
    simp only [Option.some_bind]
    rw [scanBlocks_acc]
    cases scanBlocks [] false rest with
    | none => rfl
    | some r => simp

theorem runOnFunction_append (l₁ l₂ : List BasicBlock) :
    runOnFunction (l₁ ++ l₂)
      = (runOnFunction l₁).bind (fun r₁ =>
          (runOnFunction l₂).bind (fun r₂ => some (r₁.1 ++ r₂.1, r₁.2 || r₂.2))) := by
  induction l₁ with
  | nil =>
    have : runOnFunction [] = some ([], false) := rfl
    rw [List.nil_append, this]
    cases runOnFunction l₂ with
    | none => rfl
    | some r => simp
  | cons bb rest ih =>
    rw [List.cons_append, runOnFunction_cons, runOnFunction_cons, ih]
    cases scanBlock [] false bb with
    | none => rfl
    | some r₀ =>
      cases runOnFunction rest with
      | none => rfl
      | some r₁ =>
        cases runOnFunction l₂ with
        | none => rfl
        | some r₂ => simp [Bool.or_assoc]

/-- The run over a function around one of its blocks. -/
theorem runOnFunction_around (bs₁ bs₂ : List BasicBlock) (bb : BasicBlock)
    (fn' : Function) (c : Bool) :
    runOnFunction (bs₁ ++ bb :: bs₂) = some (fn', c) ↔
      ∃ bs₁' c₁ bb' c₂ bs₂' c₃,
        runOnFunction bs₁ = some (bs₁', c₁) ∧ scanBlock [] false bb = some (bb', c₂)
        ∧ runOnFunction bs₂ = some (bs₂', c₃)
        ∧ fn' = bs₁' ++ bb' :: bs₂' ∧ c = (c₁ || c₂ || c₃) := by
  rw [runOnFunction_append, runOnFunction_cons]
  cases h1 : runOnFunction bs₁ with
  | none => simp
  | some r₁ =>
    cases h2 : scanBlock [] false bb with
    | none => simp
    | some r₂ =>
      cases h3 : runOnFunction bs₂ with
      | none => simp
      | some r₃ =>
        obtain ⟨a₁, b₁⟩ := r₁
        obtain ⟨a₂, b₂⟩ := r₂
        obtain ⟨a₃, b₃⟩ := r₃
        simp only [Option.some_bind, Option.some.injEq, Prod.mk.injEq]
        constructor
        · rintro ⟨rfl, rfl⟩
          exact ⟨a₁, b₁, a₂, b₂, a₃, b₃, ⟨rfl, rfl⟩, ⟨rfl, rfl⟩, ⟨rfl, rfl⟩,
            rfl, by simp [Bool.or_assoc]⟩
        · rintro ⟨_, _, _, _, _, _, ⟨rfl, rfl⟩, ⟨rfl, rfl⟩, ⟨rfl, rfl⟩, rfl, rfl⟩
          exact ⟨rfl, by simp [Bool.or_assoc]⟩

/-! ## Lemmas on the visit of a store -/

/-- A store one of whose operands is its own uncasted value is left alone. -/
theorem visitStore_ineligible {sv q : Value}
    (h : q = uncastedValue q ∨ sv = uncastedValue sv) :
    visitStore sv q = some ([Instr.store sv q], false) := by
  unfold visitStore
  simp only []
  rw [if_neg]
  intro ⟨h1, h2⟩
  rcases h with h | h
  · exact h1 h
  · exact h2 h

/-- An eligible store whose uncasted operands already fit is replaced by the store of the
uncasted value to the uncasted pointer. -/
theorem visitStore_direct {sv q : Value} {elementType : Ty}
    (hq : q ≠ uncastedValue q) (hsv : sv ≠ uncastedValue sv)
    (hty : (uncastedValue q).getType = Ty.ptr elementType)
    (hfit : (uncastedValue sv).getType.getPointerTo = Ty.ptr elementType) :
    visitStore sv q
      = some ([Instr.store (uncastedValue sv) (uncastedValue q)], true) := by
  unfold visitStore
  simp only []
  rw [if_pos ⟨hq, hsv⟩]
  simp only [hty]
  have hs : synthesize (uncastedValue sv) elementType = some none := by
    unfold synthesize
    rw [if_neg (by simpa using hfit)]
  simp only [hs]
  rw [if_pos hfit]

/-- An eligible store whose uncasted operands do not fit, over a pointer to a pointer
type, with a pointer-typed uncasted value for which some list of zeros matches: an element
address is placed in front of the replacement store, which stores it. -/
theorem visitStore_gep {sv q : Value} {subPointee e t : Ty} {k : Nat}
    (hq : q ≠ uncastedValue q) (hsv : sv ≠ uncastedValue sv)
    (hty : (uncastedValue q).getType = Ty.ptr (Ty.ptr subPointee))
    (hfit : (uncastedValue sv).getType.getPointerTo ≠ Ty.ptr (Ty.ptr subPointee))
    (hv : (uncastedValue sv).getType = Ty.ptr e) (hk1 : 1 ≤ k)
    (hk : getIndexedType e (zeros k) = some t)
    (ht : t.getPointerTo = Ty.ptr subPointee) :
    ∃ k', 1 ≤ k' ∧ k' ≤ k ∧ visitStore sv q
      = some ([Instr.inst (Value.gep (uncastedValue sv) (zeros k') (Ty.ptr subPointee)),
               Instr.store (Value.gep (uncastedValue sv) (zeros k') (Ty.ptr subPointee))
                 (uncastedValue q)], true) := by
  obtain ⟨g, hg⟩ :=
    @gepUpToType_complete (uncastedValue sv) e (Ty.ptr subPointee) t k hv rfl hk1 hk ht
  obtain ⟨e', k', t', hv', hk1', hgeq, hk', ht', hmin⟩ := gepUpToType_some hg
  have hee : e' = e := by
    rw [hv] at hv'
    exact (Ty.ptr.inj hv').symm
  subst hee
  have hkk : k' ≤ k := by
    by_contra hlt
    exact hmin k hk1 (by omega) t hk ht
  refine ⟨k', hk1', hkk, ?_⟩
  unfold visitStore
  simp only []
  rw [if_pos ⟨hq, hsv⟩]
  simp only [hty]
  have hs : synthesize (uncastedValue sv) (Ty.ptr subPointee) = some (some g) := by
    unfold synthesize
    rw [if_pos hfit]
    exact hg
  simp only [hs]
  rw [hgeq]
  simp [Value.getType, Ty.getPointerTo]

/-- An eligible store whose uncasted operands do not fit and for which no element address
can be made is left alone. -/
theorem visitStore_nomatch {sv q : Value} {elementType : Ty}
    (hty : (uncastedValue q).getType = Ty.ptr elementType)
    (hfit : (uncastedValue sv).getType.getPointerTo ≠ Ty.ptr elementType)
    (hno : elementType.isPointerTy = false ∨
      ∃ e, (uncastedValue sv).getType = Ty.ptr e ∧
        ∀ k t, 1 ≤ k → getIndexedType e (zeros k) = some t →
          t.getPointerTo ≠ elementType) :
    visitStore sv q = some ([Instr.store sv q], false) := by
  unfold visitStore
  simp only []
  by_cases hel : q ≠ uncastedValue q ∧ sv ≠ uncastedValue sv
  · rw [if_pos hel]
    simp only [hty]
    have hs : synthesize (uncastedValue sv) elementType = some none := by
      unfold synthesize
      rw [if_pos hfit]
      cases elementType with
      | ptr subPointee =>
        simp only []
        rcases hno with hno | ⟨e, hv, hno⟩
        · simp [Ty.isPointerTy] at hno
        · exact gepUpToType_null hv rfl hno
      | void => rfl
      | int b => rfl
      | fp b => rfl
      | struct fs => rfl
      | array n el => rfl
      | vector n el => rfl
      | func r ps => rfl
    simp only [hs]
    rw [if_neg hfit]
  · rw [if_neg hel]

/-- What the visit of a store can return: the store itself with `changed` unset, or, for
an eligible store over a pointer-typed uncasted pointer, a replacement store to the
uncasted pointer with `changed` set, storing the uncasted value or an element address
rooted at it that is placed in front. -/
theorem visitStore_cases {sv q : Value} {placed : List Instr} {c : Bool}
    (h : visitStore sv q = some (placed, c)) :
    (placed = [Instr.store sv q] ∧ c = false) ∨
    (c = true ∧ q ≠ uncastedValue q ∧ sv ≠ uncastedValue sv ∧
      ∃ elementType, (uncastedValue q).getType = Ty.ptr elementType ∧
        ((placed = [Instr.store (uncastedValue sv) (uncastedValue q)]
            ∧ (uncastedValue sv).getType = elementType) ∨
         (∃ k, 1 ≤ k ∧
            placed = [Instr.inst (Value.gep (uncastedValue sv) (zeros k) elementType),
              Instr.store (Value.gep (uncastedValue sv) (zeros k) elementType)
                (uncastedValue q)]))) := by
  unfold visitStore at h
  simp only [] at h
  by_cases hel : q ≠ uncastedValue q ∧ sv ≠ uncastedValue sv
  · rw [if_pos hel] at h
    cases hty : (uncastedValue q).getType with
    | ptr elementType =>
      simp only [hty] at h
      cases hs : synthesize (uncastedValue sv) elementType with
      | none => simp [hs] at h
      | some r =>
        cases r with
        | none =>
          simp only [hs] at h
          by_cases hfit : (uncastedValue sv).getType.getPointerTo = Ty.ptr elementType
          · rw [if_pos hfit] at h
            have h' := Option.some.inj h
            right
            refine ⟨(Prod.mk.inj h').2.symm, hel.1, hel.2, elementType, rfl, Or.inl ?_⟩
            exact ⟨(Prod.mk.inj h').1.symm, Ty.ptr.inj hfit⟩
          · rw [if_neg hfit] at h
            have h' := Option.some.inj h
            left
            exact ⟨(Prod.mk.inj h').1.symm, (Prod.mk.inj h').2.symm⟩
        | some g =>
          simp only [hs] at h
          -- the element address has the pointee type of the uncasted pointer
          have hg : ∃ k, 1 ≤ k ∧ g = Value.gep (uncastedValue sv) (zeros k) elementType := by
            unfold synthesize at hs
            by_cases hfit : (uncastedValue sv).getType.getPointerTo ≠ Ty.ptr elementType
            · rw [if_pos hfit] at hs
              cases elementType with
              | ptr subPointee =>
                simp only [] at hs
                obtain ⟨_, k, _, _, hk1, hgeq, _, _, _⟩ := gepUpToType_some hs
                exact ⟨k, hk1, hgeq⟩
              | void => simp at hs
              | int b => simp at hs
              | fp b => simp at hs
              | struct fs => simp at hs
              | array n el => simp at hs
              | vector n el => simp at hs
              | func r ps => simp at hs
            · rw [if_neg hfit] at hs
              simp at hs
          obtain ⟨k, hk1, hgeq⟩ := hg
          subst hgeq
          rw [if_pos (by simp [Value.getType, Ty.getPointerTo])] at h
          have h' := Option.some.inj h
          right
          refine ⟨(Prod.mk.inj h').2.symm, hel.1, hel.2, elementType, rfl, Or.inr ?_⟩
          exact ⟨k, hk1, (Prod.mk.inj h').1.symm⟩
    | void => simp only [hty] at h; left; simpa [eq_comm] using h
    | int b => simp only [hty] at h; left; simpa [eq_comm] using h
    | fp b => simp only [hty] at h; left; simpa [eq_comm] using h
    | struct fs => simp only [hty] at h; left; simpa [eq_comm] using h
    | array n el => simp only [hty] at h; left; simpa [eq_comm] using h
    | vector n el => simp only [hty] at h; left; simpa [eq_comm] using h
    | func r ps => simp only [hty] at h; left; simpa [eq_comm] using h
  · rw [if_neg hel] at h
    left
    simpa [eq_comm] using h

/-! ## Lemmas on what the run leaves behind -/

theorem isValuePreservingCast_ne {v : Value} (h : v.isValuePreservingCast = true) :
    v ≠ uncastedValue v := by
  cases v with
  | other id ty => simp [Value.isValuePreservingCast] at h
  | gep q idx ty => simp [Value.isValuePreservingCast] at h
  | cast op x ty =>
    apply uncastedValue_ne_of_cast
    intro e
    subst e
    simp [Value.isValuePreservingCast, CastOp.valuePreserving] at h

theorem scanBlock_inst (v : Value) (rest : List Instr) :
    scanBlock [] false (Instr.inst v :: rest)
      = (scanBlock [] false rest).bind (fun r => some (Instr.inst v :: r.1, r.2)) := by
  rw [scanBlock, scanBlock_acc]
  cases scanBlock [] false rest with
  | none => rfl
  | some r => simp

/-- A store that the visit replaces is not among what stands in its place, and the
replacement store is well typed. -/
theorem visitStore_changed {sv q : Value} {placed : List Instr}
    (h : visitStore sv q = some (placed, true)) :
    Instr.store sv q ∉ placed ∧ (∀ i ∈ placed, i.wellTyped = true)
      ∧ placed.head? ≠ some (Instr.store sv q) := by
  rcases visitStore_cases h with ⟨_, hc⟩ | ⟨_, hq, hsv, e, hty, hpl⟩
  · exact absurd hc (by simp)
  · rcases hpl with ⟨hpl, hvt⟩ | ⟨k, hk, hpl⟩
    · subst hpl
      refine ⟨?_, ?_, ?_⟩
      · simp only [List.mem_singleton]
        intro e'
        exact hq (Instr.store.inj e').2
      · intro i hi
        rw [List.mem_singleton.mp hi]
        simp [Instr.wellTyped, hty, hvt]
      · simp only [List.head?_cons, ne_eq, Option.some.injEq]
        intro e'
        exact hq (Instr.store.inj e').2.symm
    · subst hpl
      refine ⟨?_, ?_, ?_⟩
      · intro hm
        simp only [List.mem_cons, List.mem_singleton, List.not_mem_nil, or_false] at hm
        rcases hm with e' | e'
        · exact Instr.noConfusion e'
        · exact hq (Instr.store.inj e').2
      · intro i hi
        simp only [List.mem_cons, List.mem_singleton, List.not_mem_nil, or_false] at hi
        rcases hi with e' | e'
        · rw [e']; rfl
        · rw [e']
          simp only [Instr.wellTyped, decide_eq_true_eq]
          rw [hty]
          rfl
      · simp

/-- A visit that leaves `changed` unset leaves the store alone. -/
theorem visitStore_unchanged {sv q : Value} {placed : List Instr}
    (h : visitStore sv q = some (placed, false)) : placed = [Instr.store sv q] := by
  rcases visitStore_cases h with ⟨hp, _⟩ | ⟨hc, _⟩
  · exact hp
  · exact absurd hc (by simp)

/-- The scan of a block leaves it as it is exactly when it leaves `changed` unset, it sets
`changed` exactly when the visit of one of its stores does, and every instruction it
leaves is an instruction of the block or is well typed. -/
theorem scanBlock_result (bb : List Instr) :
    ∀ (bb' : BasicBlock) (c : Bool), scanBlock [] false bb = some (bb', c) →
      (bb' = bb ↔ c = false)
      ∧ (c = true ↔ ∃ sv q, Instr.store sv q ∈ bb ∧
            ∃ placed, visitStore sv q = some (placed, true))
      ∧ (∀ i ∈ bb', i ∈ bb ∨ i.wellTyped = true) := by
  induction bb with
  | nil =>
    intro bb' c h
    simp only [scanBlock, Option.some.injEq, Prod.mk.injEq] at h
    obtain ⟨rfl, rfl⟩ := h
    simp
  | cons i rest ih =>
    intro bb' c h
    cases i with
    | inst v =>
      rw [scanBlock_inst] at h
      cases hr : scanBlock [] false rest with
      | none => simp [hr] at h
      | some r =>
        obtain ⟨o, c₂⟩ := r
        simp only [hr, Option.some_bind, Option.some.injEq, Prod.mk.injEq] at h
        obtain ⟨rfl, rfl⟩ := h
        obtain ⟨h1, h2, h3⟩ := ih o c₂ hr
        refine ⟨?_, ?_, ?_⟩
        · rw [← h1]; simp
        · rw [h2]; simp
        · intro j hj
          rcases List.mem_cons.mp hj with e | e
          · left; rw [e]; exact List.mem_cons_self _ _
          · rcases h3 j e with h' | h'
            · left; exact List.mem_cons_of_mem _ h'
            · right; exact h'
    | store sv q =>
      rw [scanBlock_store] at h
      cases hv : visitStore sv q with
      | none => simp [hv] at h
      | some pc =>
        cases hr : scanBlock [] false rest with
        | none => simp [hv, hr] at h
        | some r =>
          obtain ⟨placed, c₁⟩ := pc
          obtain ⟨o, c₂⟩ := r
          simp only [hv, hr, Option.some_bind, Option.some.injEq, Prod.mk.injEq] at h
          obtain ⟨rfl, rfl⟩ := h
          obtain ⟨h1, h2, h3⟩ := ih o c₂ hr
          cases c₁ with
          | false =>
            have hp := visitStore_unchanged hv
            subst hp
            refine ⟨?_, ?_, ?_⟩
            · simp only [List.singleton_append, List.cons.injEq, true_and, Bool.false_or]
              exact h1
            · rw [Bool.false_or, h2]
              constructor
              · rintro ⟨sv', q', hm, hpl⟩
                exact ⟨sv', q', List.mem_cons_of_mem _ hm, hpl⟩
              · rintro ⟨sv', q', hm, pl, hpl⟩
                rcases List.mem_cons.mp hm with e | e
                · obtain ⟨rfl, rfl⟩ := Instr.store.inj e
                  rw [hv] at hpl
                  simp at hpl
                · exact ⟨sv', q', e, pl, hpl⟩
            · intro j hj
              rcases List.mem_cons.mp hj with e | e
              · left; rw [e]; exact List.mem_cons_self _ _
              · rcases h3 j e with h' | h'
                · left; exact List.mem_cons_of_mem _ h'
                · right; exact h'
          | true =>
            obtain ⟨hn, hw, hh⟩ := visitStore_changed hv
            refine ⟨?_, ?_, ?_⟩
            · simp only [Bool.true_or, Bool.true_eq_false, iff_false]
              intro e
              apply hh
              have := congrArg List.head? e
              cases placed with
              | nil => exact absurd hv (by
                  intro hv'
                  rcases visitStore_cases hv' with ⟨hp, _⟩ | ⟨_, _, _, _, _, hp | ⟨_, _, hp⟩⟩
                  · exact absurd hp (by simp)
                  · exact absurd hp.1 (by simp)
                  · exact absurd hp (by simp))
              | cons a as => simpa using this
            · simp only [Bool.true_or, true_iff]
              exact ⟨sv, q, List.mem_cons_self _ _, placed, hv⟩
            · intro j hj
              rcases List.mem_append.mp hj with e | e
              · right; exact hw j e
              · rcases h3 j e with h' | h'
                · left; exact List.mem_cons_of_mem _ h'
                · right; exact h'

/-- The run over a function, block by block: the function is left as it is exactly when
`changed` is unset, `changed` is set exactly when the visit of one of the stores sets it,
and every instruction of an output block is an instruction of the input or is well
typed. -/
theorem runOnFunction_result (fn : List BasicBlock) :
    ∀ (fn' : Function) (c : Bool), runOnFunction fn = some (fn', c) →
      (fn' = fn ↔ c = false)
      ∧ (c = true ↔ ∃ bb ∈ fn, ∃ sv q, Instr.store sv q ∈ bb ∧
            ∃ placed, visitStore sv q = some (placed, true))
      ∧ (∀ bb' ∈ fn', ∀ i ∈ bb', (∃ bb ∈ fn, i ∈ bb) ∨ i.wellTyped = true) := by
  induction fn with
  | nil =>
    intro fn' c h
    have h0 : runOnFunction [] = some ([], false) := rfl
    rw [h0] at h
    simp only [Option.some.injEq, Prod.mk.injEq] at h
    obtain ⟨rfl, rfl⟩ := h
    simp
  | cons bb rest ih =>
    intro fn' c h
    rw [runOnFunction_cons] at h
    cases hb : scanBlock [] false bb with
    | none => simp [hb] at h
    | some r₁ =>
      cases hr : runOnFunction rest with
      | none => simp [hb, hr] at h
      | some r₂ =>
        obtain ⟨bb', c₁⟩ := r₁
        obtain ⟨o, c₂⟩ := r₂
        simp only [hb, hr, Option.some_bind, Option.some.injEq, Prod.mk.injEq] at h
        obtain ⟨rfl, rfl⟩ := h
        obtain ⟨b1, b2, b3⟩ := scanBlock_result bb bb' c₁ hb
        obtain ⟨h1, h2, h3⟩ := ih o c₂ hr
        refine ⟨?_, ?_, ?_⟩
        · simp only [List.cons.injEq, Bool.or_eq_false_iff]
          rw [b1, h1]
        · simp only [Bool.or_eq_true, List.mem_cons, exists_eq_or_imp]
          rw [b2, h2]
        · intro x hx i hi
          rcases List.mem_cons.mp hx with e | e
          · subst e
            rcases b3 i hi with h' | h'
            · left; exact ⟨bb, List.mem_cons_self _ _, h'⟩
            · right; exact h'
          · rcases h3 x e i hi with ⟨y, hy, h'⟩ | h'
            · left; exact ⟨y, List.mem_cons_of_mem _ hy, h'⟩
            · right; exact h'

/-- The run over a function around one of its stores: from the results on the blocks in
front, on the block in front of the store, on the store, on the block behind it and on
the blocks behind. -/
theorem runOnFunction_at_store (bs₁ bs₂ : List BasicBlock) (pre post : List Instr)
    (sv q : Value) (r₁ r₄ : Function × Bool) (r₂ r₃ : BasicBlock × Bool)
    (placed : List Instr) (cs : Bool)
    (hb₁ : runOnFunction bs₁ = some r₁) (hpre : scanBlock [] false pre = some r₂)
    (hpost : scanBlock [] false post = some r₃) (hb₂ : runOnFunction bs₂ = some r₄)
    (hv : visitStore sv q = some (placed, cs)) :
    runOnFunction (bs₁ ++ (pre ++ Instr.store sv q :: post) :: bs₂)
      = some (r₁.1 ++ (r₂.1 ++ placed ++ r₃.1) :: r₄.1,
              r₁.2 || r₂.2 || cs || r₃.2 || r₄.2) := by
  rw [runOnFunction_append, runOnFunction_cons, scanBlock_append, scanBlock_store,
    hb₁, hpre, hpost, hb₂, hv]
  simp [Bool.or_assoc]

/-- C1: one application of `runOnFunction` to the motivating pattern replaces
`store x, y` by `store field0, field1`, whose operands are not casts and whose stored
value has the pointee type of the pointer, and returns true. -/
theorem C1_motivating_pattern :
    runOnFunction [patternBlock]
        = some ([[.inst field0, .inst field1, .inst patX, .inst patY,
                  .store field0 field1]], true)
      ∧ field0.isCast = false ∧ field1.isCast = false
      ∧ field1.getType = Ty.ptr field0.getType := by
  decide

/-- C2: the replacement store is not always equivalent to the original.  On the block
`%x = zext i32 %a to i64; %y = bitcast i32* %p to i64*; store i64 %x, i64* %y`, which is
well typed, the run replaces the store of a 64-bit value by `store i32 %a, i32* %p`, the
store of a 32-bit value. -/
theorem C2_zext_store_narrowed :
    Function.wellTyped [zextBlock] = true
      ∧ runOnFunction [zextBlock]
          = some ([[.inst zextX, .inst zextY, .store zextA zextP]], true)
      ∧ zextX.getType.getPrimitiveSizeInBits = 64
      ∧ zextA.getType.getPrimitiveSizeInBits = 32 := by
  decide

/-- C3: cast-chain property.  Take a store in a function whose pointer operand and value
operand are value-preserving casts, whose uncasted pointer has the pointer type `P` with
pointee `Q`, and for which pointer-to(type of the uncasted value) is `P`, or the uncasted
value has a pointer type whose pointee is indexed by some `k ≥ 1` zeros to a type whose
pointer type is `Q`.  When the run over the rest of the function returns, the run over
the function returns with `changed` set, and in the place of the store stands either the
store of the uncasted value to the uncasted pointer, or an element address rooted at the
uncasted value followed by the store of that element address to the uncasted pointer. -/
theorem C3_cast_chain (bs₁ bs₂ : List BasicBlock) (pre post : List Instr) (v p : Value)
    (Q : Ty) (r₁ r₄ : Function × Bool) (r₂ r₃ : BasicBlock × Bool)
    (hb₁ : runOnFunction bs₁ = some r₁) (hpre : scanBlock [] false pre = some r₂)
    (hpost : scanBlock [] false post = some r₃) (hb₂ : runOnFunction bs₂ = some r₄)
    (hp : p.isValuePreservingCast = true) (hv : v.isValuePreservingCast = true)
    (hP : (uncastedValue p).getType = Ty.ptr Q)
    (hsub : (uncastedValue v).getType.getPointerTo = Ty.ptr Q ∨
      ∃ e k t, (uncastedValue v).getType = Ty.ptr e ∧ 1 ≤ k
        ∧ getIndexedType e (zeros k) = some t ∧ t.getPointerTo = Q) :
    ∃ placed,
      (placed = [Instr.store (uncastedValue v) (uncastedValue p)] ∨
        ∃ k, 1 ≤ k ∧
          placed = [Instr.inst (Value.gep (uncastedValue v) (zeros k) Q),
                    Instr.store (Value.gep (uncastedValue v) (zeros k) Q)
                      (uncastedValue p)])
      ∧ runOnFunction (bs₁ ++ (pre ++ Instr.store v p :: post) :: bs₂)
          = some (r₁.1 ++ (r₂.1 ++ placed ++ r₃.1) :: r₄.1, true) := by
  have hq := isValuePreservingCast_ne hp
  have hsv := isValuePreservingCast_ne hv
  by_cases hfit : (uncastedValue v).getType.getPointerTo = Ty.ptr Q
  · refine ⟨_, Or.inl rfl, ?_⟩
    rw [runOnFunction_at_store bs₁ bs₂ pre post v p r₁ r₄ r₂ r₃ _ _ hb₁ hpre hpost hb₂
      (visitStore_direct hq hsv hP hfit)]
    simp
  · rcases hsub with hsub | ⟨e, k, t, hve, hk1, hk, ht⟩
    · exact absurd hsub hfit
    · have hQ : Q = Ty.ptr t := by rw [← ht]; rfl
      subst hQ
      obtain ⟨k', hk1', _, hvis⟩ := visitStore_gep hq hsv hP hfit hve hk1 hk rfl
      refine ⟨_, Or.inr ⟨k', hk1', rfl⟩, ?_⟩
      rw [runOnFunction_at_store bs₁ bs₂ pre post v p r₁ r₄ r₂ r₃ _ _ hb₁ hpre hpost hb₂
        hvis]
      simp

/-- C3 at `store i64 %x, i64* %y` with `%x = ptrtoint { i32 }* %s to i64` and
`%y = bitcast i32** %r to i64*`: two zeros index `{ i32 }` to `i32`. -/
theorem C3_cast_chain_witness :
    ∃ placed,
      (placed = [Instr.store (uncastedValue subX) (uncastedValue subY)] ∨
        ∃ k, 1 ≤ k ∧
          placed = [Instr.inst (Value.gep (uncastedValue subX) (zeros k) (Ty.ptr i32)),
                    Instr.store (Value.gep (uncastedValue subX) (zeros k) (Ty.ptr i32))
                      (uncastedValue subY)])
      ∧ runOnFunction ([] ++ ([Instr.inst subX, Instr.inst subY]
            ++ Instr.store subX subY :: []) :: [])
          = some (([] : Function) ++ ([Instr.inst subX, Instr.inst subY] ++ placed ++ [])
              :: [], true) :=
  C3_cast_chain [] [] [Instr.inst subX, Instr.inst subY] [] subX subY (Ty.ptr i32)
    ([], false) ([], false) ([Instr.inst subX, Instr.inst subY], false) ([], false)
    rfl rfl rfl rfl rfl rfl rfl
    (Or.inr ⟨Ty.struct (TyList.ofList [i32]), 2, i32, rfl, by decide, rfl, rfl⟩)

/-- C4: well-typedness is preserved.  When the run returns, every instruction that the
visit of a store of the input places when it replaces the store is well typed; every store
of the output is well typed or is a store of the input; hence if every store of the input
has a stored value of the pointee type of its pointer, so has every store of the
output. -/
theorem C4_well_typed_preserved (fn fn' : Function) (c : Bool)
    (h : runOnFunction fn = some (fn', c)) :
    (∀ bb ∈ fn, ∀ sv q, Instr.store sv q ∈ bb → ∀ placed,
        visitStore sv q = some (placed, true) →
        ∀ sv' q', Instr.store sv' q' ∈ placed → q'.getType = Ty.ptr sv'.getType)
    ∧ (∀ bb' ∈ fn', ∀ sv q, Instr.store sv q ∈ bb' →
        q.getType = Ty.ptr sv.getType ∨ ∃ bb ∈ fn, Instr.store sv q ∈ bb)
    ∧ (fn.wellTyped = true → fn'.wellTyped = true) := by
  obtain ⟨_, _, h3⟩ := runOnFunction_result fn fn' c h
  refine ⟨?_, ?_, ?_⟩
  · intro bb _ sv q _ placed hvis sv' q' hm
    have := (visitStore_changed hvis).2.1 _ hm
    simpa [Instr.wellTyped] using this
  · intro bb' hbb' sv q hm
    rcases h3 bb' hbb' _ hm with h' | h'
    · right; exact h'
    · left; simpa [Instr.wellTyped] using h'
  · intro hwt
    unfold Function.wellTyped at hwt ⊢
    rw [List.all_eq_true] at hwt ⊢
    intro bb' hbb'
    rw [List.all_eq_true]
    intro i hi
    rcases h3 bb' hbb' i hi with ⟨bb, hbb, h'⟩ | h'
    · have := hwt bb hbb
      rw [List.all_eq_true] at this
      exact this i h'
    · exact h'

/-- C4 at the motivating pattern. -/
theorem C4_well_typed_preserved_witness :
    (∀ bb ∈ [patternBlock], ∀ sv q, Instr.store sv q ∈ bb → ∀ placed,
        visitStore sv q = some (placed, true) →
        ∀ sv' q', Instr.store sv' q' ∈ placed → q'.getType = Ty.ptr sv'.getType)
    ∧ (∀ bb' ∈ [[Instr.inst field0, Instr.inst field1, Instr.inst patX, Instr.inst patY,
                  Instr.store field0 field1]],
        ∀ sv q, Instr.store sv q ∈ bb' →
        q.getType = Ty.ptr sv.getType ∨ ∃ bb ∈ [patternBlock], Instr.store sv q ∈ bb)
    ∧ (Function.wellTyped [patternBlock] = true →
        Function.wellTyped [[Instr.inst field0, Instr.inst field1, Instr.inst patX,
          Instr.inst patY, Instr.store field0 field1]] = true) :=
  C4_well_typed_preserved [patternBlock] _ true (by decide)

/-- C5: the pass is not total on well-typed input.  On the block
`%x = bitcast double %d to i64; %y = bitcast i32** %p to i64*; store i64 %x, i64* %y`,
which is well typed, `runOnFunction` calls `gepUpToType` on `%d`, whose type is not a
pointer type, and the `cast<PointerType>` in it fails: the run does not return. -/
theorem C5_abort_on_non_pointer_value :
    Function.wellTyped [abortBlock] = true
      ∧ uncastedValue abortX = abortD ∧ abortD.getType.isPointerTy = false
      ∧ synthesize abortD (Ty.ptr i32) = gepUpToType abortD (Ty.ptr i32)
      ∧ gepUpToType abortD (Ty.ptr i32) = none
      ∧ runOnFunction [abortBlock] = none := by
  decide

/-- C6: truncation boundary.  For every value, its uncasted value is not a cast or is a
`trunc`; it lies on the operand chain of the value and every value in front of it on the
chain is a cast that is not a `trunc`; and the uncasted value of a `trunc` of a `bitcast`
is that `trunc` itself. -/
theorem C6_truncation_boundary (v : Value) :
    ((uncastedValue v).isCast = false ∨ (uncastedValue v).isTrunc = true)
    ∧ (∃ skipped below, operandChain v = skipped ++ uncastedValue v :: below
        ∧ ∀ u ∈ skipped, u.isCast = true ∧ u.isTrunc = false)
    ∧ (∀ (x : Value) (ty ty' : Ty),
        uncastedValue (Value.cast CastOp.trunc (Value.cast CastOp.bitCast x ty) ty')
          = Value.cast CastOp.trunc (Value.cast CastOp.bitCast x ty) ty') := by
  refine ⟨uncastedValue_result v, ?_, ?_⟩
  · obtain ⟨skipped, below, hc, hs⟩ := uncastedValue_chain v
    refine ⟨skipped, below, hc, ?_⟩
    intro u hu
    obtain ⟨op, x, ty, rfl, hop⟩ := hs u hu
    refine ⟨rfl, ?_⟩
    cases op <;> first | rfl | exact absurd rfl hop
  · intro x ty ty'
    simp [uncastedValue]

/-- C7: a skipped cast need not be value-preserving.  The uncasted value of
`%x = sext i16 %a to i32` is `%a`: the walk skips the sign extension. -/
theorem C7_sext_is_skipped :
    sextX = Value.cast CastOp.sext sextA i32
      ∧ uncastedValue sextX = sextA
      ∧ operandChain sextX = [sextX, sextA]
      ∧ CastOp.valuePreserving CastOp.sext = false := by
  decide

/-- C8: eligibility.  For a store in a function, one of its operands is its own uncasted
value exactly when one of them is not a cast or is a `trunc`.  When the run over the rest
of the function returns: in that case the run leaves the store in its place with its
operands, places nothing for it and takes `changed` from the rest of the function alone;
and whenever something else than the store stands in its place after the run, both
operands differ from their uncasted values. -/
theorem C8_eligibility (bs₁ bs₂ : List BasicBlock) (pre post : List Instr) (v p : Value)
    (r₁ r₄ : Function × Bool) (r₂ r₃ : BasicBlock × Bool)
    (hb₁ : runOnFunction bs₁ = some r₁) (hpre : scanBlock [] false pre = some r₂)
    (hpost : scanBlock [] false post = some r₃) (hb₂ : runOnFunction bs₂ = some r₄) :
    ((p = uncastedValue p ∨ v = uncastedValue v) ↔
        (p.isCast = false ∨ p.isTrunc = true ∨ v.isCast = false ∨ v.isTrunc = true))
    ∧ ((p = uncastedValue p ∨ v = uncastedValue v) →
        runOnFunction (bs₁ ++ (pre ++ Instr.store v p :: post) :: bs₂)
          = some (r₁.1 ++ (r₂.1 ++ [Instr.store v p] ++ r₃.1) :: r₄.1,
                  r₁.2 || r₂.2 || r₃.2 || r₄.2))
    ∧ (∀ placed c,
        runOnFunction (bs₁ ++ (pre ++ Instr.store v p :: post) :: bs₂)
          = some (r₁.1 ++ (r₂.1 ++ placed ++ r₃.1) :: r₄.1, c) →
        placed ≠ [Instr.store v p] →
        p ≠ uncastedValue p ∧ v ≠ uncastedValue v) := by
  have hleft : (p = uncastedValue p ∨ v = uncastedValue v) →
      runOnFunction (bs₁ ++ (pre ++ Instr.store v p :: post) :: bs₂)
        = some (r₁.1 ++ (r₂.1 ++ [Instr.store v p] ++ r₃.1) :: r₄.1,
                r₁.2 || r₂.2 || r₃.2 || r₄.2) := by
    intro h
    rw [runOnFunction_at_store bs₁ bs₂ pre post v p r₁ r₄ r₂ r₃ _ _ hb₁ hpre hpost hb₂
      (visitStore_ineligible h)]
    simp
  refine ⟨?_, hleft, ?_⟩
  · have hp := uncastedValue_eq_self_iff p
    have hv := uncastedValue_eq_self_iff v
    have hp' : p = uncastedValue p ↔ (p.isCast = false ∨ p.isTrunc = true) :=
      eq_comm.trans hp
    have hv' : v = uncastedValue v ↔ (v.isCast = false ∨ v.isTrunc = true) :=
      eq_comm.trans hv
    exact (or_congr hp' hv').trans or_assoc
  · intro placed c hrun hne
    by_contra hcon
    have hin : p = uncastedValue p ∨ v = uncastedValue v := by
      by_cases h1 : p = uncastedValue p
      · exact Or.inl h1
      · by_cases h2 : v = uncastedValue v
        · exact Or.inr h2
        · exact absurd ⟨h1, h2⟩ hcon
    rw [hleft hin] at hrun
    have h1 : r₁.1 ++ (r₂.1 ++ [Instr.store v p] ++ r₃.1) :: r₄.1
        = r₁.1 ++ (r₂.1 ++ placed ++ r₃.1) :: r₄.1 :=
      (Prod.mk.inj (Option.some.inj hrun)).1
    have h2 : r₂.1 ++ [Instr.store v p] ++ r₃.1 = r₂.1 ++ placed ++ r₃.1 :=
      (List.cons.inj (List.append_cancel_left h1)).1
    have h3 : r₂.1 ++ [Instr.store v p] = r₂.1 ++ placed := List.append_cancel_right h2
    have h4 : [Instr.store v p] = placed := List.append_cancel_left h3
    exact hne h4.symm

/-- C8 at `store i64 %n, i64* %y`, whose value operand is not a cast. -/
theorem C8_eligibility_witness :
    ((patY = uncastedValue patY ∨ plainN = uncastedValue plainN) ↔
        (patY.isCast = false ∨ patY.isTrunc = true ∨ plainN.isCast = false
          ∨ plainN.isTrunc = true))
    ∧ ((patY = uncastedValue patY ∨ plainN = uncastedValue plainN) →
        runOnFunction ([] ++ ([Instr.inst patY] ++ Instr.store plainN patY :: []) :: [])
          = some (([] : Function) ++ ([Instr.inst patY] ++ [Instr.store plainN patY] ++ [])
              :: [], false || false || false || false))
    ∧ (∀ placed c,
        runOnFunction ([] ++ ([Instr.inst patY] ++ Instr.store plainN patY :: []) :: [])
          = some (([] : Function) ++ ([Instr.inst patY] ++ placed ++ []) :: [], c) →
        placed ≠ [Instr.store plainN patY] →
        patY ≠ uncastedValue patY ∧ plainN ≠ uncastedValue plainN) :=
  C8_eligibility [] [] [Instr.inst patY] [] plainN patY ([], false) ([], false)
    ([Instr.inst patY], false) ([], false) rfl rfl rfl rfl

/-- A store without a match is kept when the uncasted value has a pointer type: take an
eligible store in a function whose uncasted pointer has the pointer type `P` with pointee
`Q`, with pointer-to(type of the uncasted value) different from `P`, and such that `Q` is
not a pointer type, or the uncasted value has a pointer type with pointee `e` and no list
of `k ≥ 1` zeros indexes `e` to a type whose pointer type is `Q`.  When the run over the
rest of the function returns, the run over the function returns, the store stands in its
place with its operands, nothing is placed in front of it, and `changed` is what the rest
of the function makes it. -/
theorem runOnFunction_no_match (bs₁ bs₂ : List BasicBlock) (pre post : List Instr)
    (v p : Value) (Q : Ty) (r₁ r₄ : Function × Bool) (r₂ r₃ : BasicBlock × Bool)
    (hb₁ : runOnFunction bs₁ = some r₁) (hpre : scanBlock [] false pre = some r₂)
    (hpost : scanBlock [] false post = some r₃) (hb₂ : runOnFunction bs₂ = some r₄)
    (_hp : p ≠ uncastedValue p) (_hv : v ≠ uncastedValue v)
    (hP : (uncastedValue p).getType = Ty.ptr Q)
    (hfit : (uncastedValue v).getType.getPointerTo ≠ Ty.ptr Q)
    (hno : Q.isPointerTy = false ∨
      ∃ e, (uncastedValue v).getType = Ty.ptr e ∧
        ∀ k t, 1 ≤ k → getIndexedType e (zeros k) = some t → t.getPointerTo ≠ Q) :
    runOnFunction (bs₁ ++ (pre ++ Instr.store v p :: post) :: bs₂)
      = some (r₁.1 ++ (r₂.1 ++ [Instr.store v p] ++ r₃.1) :: r₄.1,
              r₁.2 || r₂.2 || r₃.2 || r₄.2) := by
  rw [runOnFunction_at_store bs₁ bs₂ pre post v p r₁ r₄ r₂ r₃ _ _ hb₁ hpre hpost hb₂
    (visitStore_nomatch hP hfit hno)]
  simp

/-- The store `store i64 %x, i64* %y` with `%x = ptrtoint i32* %q to i64` and
`%y = bitcast float** %r to i64*` is kept: no list of zeros indexes `i32` to `float`. -/
theorem runOnFunction_no_match_example :
    runOnFunction ([] ++ ([Instr.inst missX, Instr.inst missY]
        ++ Instr.store missX missY :: []) :: [])
      = some (([] : Function) ++ ([Instr.inst missX, Instr.inst missY]
          ++ [Instr.store missX missY] ++ []) :: [], false || false || false || false) :=
  runOnFunction_no_match [] [] [Instr.inst missX, Instr.inst missY] [] missX missY
    (Ty.ptr (Ty.fp 32)) ([], false) ([], false)
    ([Instr.inst missX, Instr.inst missY], false) ([], false)
    rfl rfl rfl rfl (by decide) (by decide) rfl (by decide)
    (Or.inr ⟨i32, rfl, by
      intro k t hk h
      match k, hk, h with
      | 1, _, h =>
        have ht : t = i32 := by
          simpa [zeros, zero, getIndexedType, indexInto, i32, Ty.isSized, eq_comm] using h
        subst ht
        decide
      | k + 2, _, h =>
        simp [zeros, List.replicate, getIndexedType, indexInto, getTypeAtIndex, i32,
          Ty.isSized] at h⟩)

/-- C9: no-match safety fails when the uncasted value has no pointer type.  On the block
`%x = inttoptr i64 %n to i8*; %y = bitcast i32*** %p to i8**; store i8* %x, i8** %y`,
which is well typed, the store is eligible, its uncasted pointer has the pointer type
`i32***`, pointer-to(`i64`) differs from it, its pointee `i32**` is a pointer type, and
no list of zeros indexes a pointee type of the uncasted value (it has none) to `i32*`;
the store is not left in place: `gepUpToType` is called on `%n` and the run does not
return. -/
theorem C9_no_match_aborts :
    Function.wellTyped [noPtrBlock] = true
      ∧ noPtrY ≠ uncastedValue noPtrY ∧ noPtrX ≠ uncastedValue noPtrX
      ∧ (uncastedValue noPtrY).getType = Ty.ptr (Ty.ptr (Ty.ptr i32))
      ∧ (uncastedValue noPtrX).getType.getPointerTo ≠ Ty.ptr (Ty.ptr (Ty.ptr i32))
      ∧ (Ty.ptr (Ty.ptr i32)).isPointerTy = true
      ∧ (∀ e k t, (uncastedValue noPtrX).getType = Ty.ptr e → 1 ≤ k →
          getIndexedType e (zeros k) = some t → t.getPointerTo ≠ Ty.ptr (Ty.ptr i32))
      ∧ gepUpToType (uncastedValue noPtrX) (Ty.ptr (Ty.ptr i32)) = none
      ∧ visitStore noPtrX noPtrY = none
      ∧ runOnFunction [noPtrBlock] = none := by
  refine ⟨by decide, by decide, by decide, by decide, by decide, by decide, ?_, by decide,
    by decide, by decide⟩
  intro e k t h
  have hty : (uncastedValue noPtrX).getType = Ty.int 64 := by decide
  rw [hty] at h
  exact Ty.noConfusion h

/-- C10: the changed signal is exact.  When the run returns, it returns true exactly when
the output differs from the input, and exactly when some store of the input was replaced
(what the visit places for it does not contain it); when it returns false the output is
the input. -/
theorem C10_changed_exact (fn fn' : Function) (c : Bool)
    (h : runOnFunction fn = some (fn', c)) :
    (c = true ↔ fn' ≠ fn)
    ∧ (c = true ↔ ∃ bb ∈ fn, ∃ sv q, Instr.store sv q ∈ bb ∧
          ∃ placed c', visitStore sv q = some (placed, c') ∧ Instr.store sv q ∉ placed)
    ∧ (c = false → fn' = fn) := by
  obtain ⟨h1, h2, _⟩ := runOnFunction_result fn fn' c h
  refine ⟨?_, ?_, h1.mpr⟩
  · rw [ne_eq, h1]
    simp
  · rw [h2]
    constructor
    · rintro ⟨bb, hbb, sv, q, hm, placed, hvis⟩
      exact ⟨bb, hbb, sv, q, hm, placed, true, hvis, (visitStore_changed hvis).1⟩
    · rintro ⟨bb, hbb, sv, q, hm, placed, c', hvis, hn⟩
      cases c' with
      | true => exact ⟨bb, hbb, sv, q, hm, placed, hvis⟩
      | false =>
        rw [visitStore_unchanged hvis] at hn
        exact absurd (List.mem_singleton.mpr rfl) hn

/-- C10 at a function whose first block is left alone and whose second block is the
motivating pattern. -/
theorem C10_changed_exact_witness :
    (true = true ↔
        [[Instr.inst missX, Instr.inst missY, Instr.store missX missY],
         [Instr.inst field0, Instr.inst field1, Instr.inst patX, Instr.inst patY,
          Instr.store field0 field1]]
        ≠ [[Instr.inst missX, Instr.inst missY, Instr.store missX missY], patternBlock])
    ∧ (true = true ↔
        ∃ bb ∈ [[Instr.inst missX, Instr.inst missY, Instr.store missX missY],
                 patternBlock],
          ∃ sv q, Instr.store sv q ∈ bb ∧
          ∃ placed c', visitStore sv q = some (placed, c') ∧ Instr.store sv q ∉ placed)
    ∧ (true = false →
        [[Instr.inst missX, Instr.inst missY, Instr.store missX missY],
         [Instr.inst field0, Instr.inst field1, Instr.inst patX, Instr.inst patY,
          Instr.store field0 field1]]
        = [[Instr.inst missX, Instr.inst missY, Instr.store missX missY], patternBlock]) :=
  C10_changed_exact
    [[Instr.inst missX, Instr.inst missY, Instr.store missX missY], patternBlock] _ true
    (by decide)

/-! ## Lemmas on the frame and on a second run -/

/-- The scan of a block is the pure function of the iteration discipline. -/
theorem scanBlock_eq_mapConcat (bb : List Instr) :
    scanBlock [] false bb = mapConcat bb := by
  induction bb with
  | nil => rfl
  | cons i rest ih =>
    cases i with
    | inst v =>
      rw [scanBlock_inst, ih, mapConcat]
      simp only [visit]
      cases mapConcat rest with
      | none => rfl
      | some r => simp
    | store sv q =>
      rw [scanBlock_store, ih, mapConcat]
      simp only [visit]
      cases visitStore sv q with
      | none => rfl
      | some pc =>
        cases mapConcat rest with
        | none => rfl
        | some r => rfl

/-- The output of the pure function is the concatenation of one piece per instruction of
the block, each piece being what the visit of its instruction places. -/
theorem mapConcat_pieces (bb : List Instr) :
    ∀ (out : BasicBlock) (c : Bool), mapConcat bb = some (out, c) →
      ∃ pieces : List (List Instr), out = pieces.flatten
        ∧ List.Forall₂ (fun i piece => ∃ c', visit i = some (piece, c')) bb pieces := by
  induction bb with
  | nil =>
    intro out c h
    simp only [mapConcat, Option.some.injEq, Prod.mk.injEq] at h
    exact ⟨[], by simp [h.1.symm], List.Forall₂.nil⟩
  | cons i rest ih =>
    intro out c h
    rw [mapConcat] at h
    cases hv : visit i with
    | none => simp [hv] at h
    | some pc =>
      cases hr : mapConcat rest with
      | none => simp [hv, hr] at h
      | some r =>
        obtain ⟨placed, c₁⟩ := pc
        obtain ⟨o, c₂⟩ := r
        simp only [hv, hr, Option.some.injEq, Prod.mk.injEq] at h
        obtain ⟨pieces, hp, hf⟩ := ih o c₂ hr
        refine ⟨placed :: pieces, ?_, List.Forall₂.cons ⟨c₁, hv⟩ hf⟩
        rw [List.flatten_cons, ← hp, h.1]

/-- The run over a function goes block by block. -/
theorem runOnFunction_blocks (fn : List BasicBlock) :
    ∀ (fn' : Function) (c : Bool), runOnFunction fn = some (fn', c) →
      List.Forall₂ (fun bb bb' => ∃ c', scanBlock [] false bb = some (bb', c')) fn fn' := by
  induction fn with
  | nil =>
    intro fn' c h
    have h0 : runOnFunction [] = some ([], false) := rfl
    rw [h0] at h
    simp only [Option.some.injEq, Prod.mk.injEq] at h
    rw [← h.1]
    exact List.Forall₂.nil
  | cons bb rest ih =>
    intro fn' c h
    rw [runOnFunction_cons] at h
    cases hb : scanBlock [] false bb with
    | none => simp [hb] at h
    | some r₁ =>
      cases hr : runOnFunction rest with
      | none => simp [hb, hr] at h
      | some r₂ =>
        obtain ⟨bb', c₁⟩ := r₁
        obtain ⟨o, c₂⟩ := r₂
        simp only [hb, hr, Option.some_bind, Option.some.injEq, Prod.mk.injEq] at h
        rw [← h.1]
        exact List.Forall₂.cons ⟨c₁, hb⟩ (ih o c₂ hr)

/-- What the visit of an instruction places is left alone by a second scan. -/
theorem visit_again {i : Instr} {placed : List Instr} {c : Bool}
    (h : visit i = some (placed, c)) : scanBlock [] false placed = some (placed, false) := by
  have hfix : ∀ x : Value, uncastedValue x = uncastedValue (uncastedValue x) := fun x =>
    ((uncastedValue_eq_self_iff (uncastedValue x)).mpr (uncastedValue_result x)).symm
  cases i with
  | inst v =>
    simp only [visit, Option.some.injEq, Prod.mk.injEq] at h
    rw [← h.1]
    rfl
  | store sv q =>
    simp only [visit] at h
    rcases visitStore_cases h with ⟨hp, hc⟩ | ⟨_, _, _, e, _, hp | ⟨k, _, hp⟩⟩
    · subst hp
      subst hc
      rw [scanBlock_store, h]
      rfl
    · rw [hp.1, scanBlock_store, visitStore_ineligible (Or.inl (hfix q))]
      rfl
    · rw [hp, scanBlock_inst, scanBlock_store, visitStore_ineligible (Or.inl (hfix q))]
      rfl

/-- A second scan of a scanned block leaves it as it is. -/
theorem scanBlock_again (bb : List Instr) :
    ∀ (bb' : BasicBlock) (c : Bool), scanBlock [] false bb = some (bb', c) →
      scanBlock [] false bb' = some (bb', false) := by
  induction bb with
  | nil =>
    intro bb' c h
    simp only [scanBlock, Option.some.injEq, Prod.mk.injEq] at h
    rw [← h.1]
    rfl
  | cons i rest ih =>
    intro bb' c h
    rw [scanBlock_eq_mapConcat, mapConcat] at h
    cases hv : visit i with
    | none => simp [hv] at h
    | some pc =>
      cases hr : mapConcat rest with
      | none => simp [hv, hr] at h
      | some r =>
        obtain ⟨placed, c₁⟩ := pc
        obtain ⟨o, c₂⟩ := r
        simp only [hv, hr, Option.some.injEq, Prod.mk.injEq] at h
        rw [← scanBlock_eq_mapConcat] at hr
        rw [← h.1, scanBlock_append, visit_again hv, ih o c₂ hr]
        rfl

/-- A second run over the output of a run leaves it as it is and returns false. -/
theorem runOnFunction_again (fn : List BasicBlock) :
    ∀ (fn' : Function) (c : Bool), runOnFunction fn = some (fn', c) →
      runOnFunction fn' = some (fn', false) := by
  induction fn with
  | nil =>
    intro fn' c h
    have h0 : runOnFunction [] = some ([], false) := rfl
    rw [h0] at h
    simp only [Option.some.injEq, Prod.mk.injEq] at h
    rw [← h.1]
    rfl
  | cons bb rest ih =>
    intro fn' c h
    rw [runOnFunction_cons] at h
    cases hb : scanBlock [] false bb with
    | none => simp [hb] at h
    | some r₁ =>
      cases hr : runOnFunction rest with
      | none => simp [hb, hr] at h
      | some r₂ =>
        obtain ⟨bb', c₁⟩ := r₁
        obtain ⟨o, c₂⟩ := r₂
        simp only [hb, hr, Option.some_bind, Option.some.injEq, Prod.mk.injEq] at h
        rw [← h.1, runOnFunction_cons, scanBlock_again bb bb' c₁ hb, ih o c₂ hr]
        rfl

/-- The pieces that the visits place keep the frame: a piece is its instruction, or
replaces an eligible store by the store to its uncasted pointer with at most an element
address in front; the instructions that are not replaced stay in order. -/
theorem pieces_frame {bb : List Instr} {pieces : List (List Instr)}
    (h : List.Forall₂ (fun i piece => ∃ c', visit i = some (piece, c')) bb pieces) :
    List.Forall₂ (fun i piece =>
        piece = [i] ∨
        ∃ sv q, i = Instr.store sv q ∧ q ≠ uncastedValue q ∧ sv ≠ uncastedValue sv ∧
          (piece = [Instr.store (uncastedValue sv) (uncastedValue q)] ∨
           ∃ k T, piece = [Instr.inst (Value.gep (uncastedValue sv) (zeros k) T),
              Instr.store (Value.gep (uncastedValue sv) (zeros k) T) (uncastedValue q)]))
      bb pieces
    ∧ List.Sublist (bb.filter (fun i => !i.isReplaced)) pieces.flatten := by
  induction h with
  | nil => exact ⟨List.Forall₂.nil, by simp⟩
  | @cons i piece rest ps hv _ ih =>
    obtain ⟨c', hv⟩ := hv
    obtain ⟨ih1, ih2⟩ := ih
    have hcase : (piece = [i] ∧ i.isReplaced = false) ∨
        (i.isReplaced = true ∧ ∃ sv q, i = Instr.store sv q ∧ q ≠ uncastedValue q
          ∧ sv ≠ uncastedValue sv ∧
          (piece = [Instr.store (uncastedValue sv) (uncastedValue q)] ∨
           ∃ k T, piece = [Instr.inst (Value.gep (uncastedValue sv) (zeros k) T),
              Instr.store (Value.gep (uncastedValue sv) (zeros k) T)
                (uncastedValue q)])) := by
      cases i with
      | inst v =>
        left
        simp only [visit, Option.some.injEq, Prod.mk.injEq] at hv
        exact ⟨hv.1.symm, rfl⟩
      | store sv q =>
        have hv' : visitStore sv q = some (piece, c') := hv
        rcases visitStore_cases hv' with ⟨hp, hc⟩ | ⟨hc, hq, hsv, e, _, hp | ⟨k, _, hp⟩⟩
        · left
          subst hc
          refine ⟨hp, ?_⟩
          simp [Instr.isReplaced, visit, hv']
        · right
          subst hc
          refine ⟨by simp [Instr.isReplaced, visit, hv'], sv, q, rfl, hq, hsv, Or.inl hp.1⟩
        · right
          subst hc
          exact ⟨by simp [Instr.isReplaced, visit, hv'], sv, q, rfl, hq, hsv,
            Or.inr ⟨k, e, hp⟩⟩
    refine ⟨List.Forall₂.cons ?_ ih1, ?_⟩
    · rcases hcase with ⟨hp, _⟩ | ⟨_, hr⟩
      · exact Or.inl hp
      · exact Or.inr hr
    · rw [List.flatten_cons]
      rcases hcase with ⟨hp, hn⟩ | ⟨hr, _⟩
      · rw [List.filter_cons_of_pos (by simp [hn]), hp]
        exact List.Sublist.cons₂ i ih2
      · rw [List.filter_cons_of_neg (by simp [hr])]
        exact List.sublist_append_of_sublist_right ih2

/-! ## Lemmas on the cursor loop in place -/

theorem insertBefore_at (before rest : List Instr) (x : Instr) :
    insertBefore (before ++ rest) before.length x = before ++ x :: rest := by
  simp [insertBefore]

theorem eraseAt_at (before rest : List Instr) (i : Instr) :
    eraseAt (before ++ i :: rest) before.length = before ++ rest := by
  simp [eraseAt]

theorem eraseAt_after_one (before rest : List Instr) (x i : Instr) :
    eraseAt (before ++ x :: i :: rest) (before.length + 1) = before ++ x :: rest := by
  have h := eraseAt_at (before ++ [x]) rest i
  simpa using h

theorem insertBefore_after_one (before rest : List Instr) (x y : Instr) :
    insertBefore (before ++ x :: rest) (before.length + 1) y = before ++ x :: y :: rest := by
  have h := insertBefore_at (before ++ [x]) rest y
  simpa using h

theorem eraseAt_after_two (before rest : List Instr) (x y i : Instr) :
    eraseAt (before ++ x :: y :: i :: rest) (before.length + 2)
      = before ++ x :: y :: rest := by
  have h := eraseAt_at (before ++ [x, y]) rest i
  simpa using h

/-- One iteration with the cursor on an instruction puts what the visit places in the place
of the instruction and leaves the cursor on the instruction that followed it. -/
theorem cursorStep_at (before rest : List Instr) (i : Instr) :
    cursorStep (before ++ i :: rest) before.length
      = (visit i).bind (fun r =>
          some (before ++ r.1 ++ rest, before.length + r.1.length, r.2)) := by
  unfold cursorStep
  have hget : (before ++ i :: rest)[before.length]? = some i := by
    rw [List.getElem?_append_right (Nat.le_refl _)]
    simp
  rw [hget]
  cases i with
  | inst v => simp [visit]
  | store sv q =>
    simp only [visit, visitStore]
    by_cases hel : q ≠ uncastedValue q ∧ sv ≠ uncastedValue sv
    · rw [if_pos hel, if_pos hel]
      cases hty : (uncastedValue q).getType with
      | ptr e =>
        simp only []
        cases hs : synthesize (uncastedValue sv) e with
        | none => rfl
        | some r =>
          cases r with
          | none =>
            simp only []
            by_cases hfit : (uncastedValue sv).getType.getPointerTo = Ty.ptr e
            · rw [if_pos hfit, if_pos hfit, insertBefore_at, eraseAt_after_one]
              simp
            · rw [if_neg hfit, if_neg hfit]
              simp
          | some g =>
            simp only []
            by_cases hfit : g.getType.getPointerTo = Ty.ptr e
            · rw [if_pos hfit, if_pos hfit, insertBefore_at, insertBefore_after_one,
                eraseAt_after_two]
              simp
            · rw [if_neg hfit, if_neg hfit, insertBefore_at]
              simp
      | void => simp
      | int b => simp
      | fp b => simp
      | struct fs => simp
      | array n el => simp
      | vector n el => simp
      | func r ps => simp
    · rw [if_neg hel, if_neg hel]
      simp

/-- The loop in place, entered with the cursor in front of `rest` and with at least as
many iterations as `rest` has instructions, reaches the end of the block; it leaves what
the pure function makes of `rest` behind the part in front, and it has examined the
instructions of `rest`, each once and in order. -/
theorem cursorLoop_spec (rest : List Instr) :
    ∀ (extra : Nat) (before : List Instr) (changed : Bool) (examined : List Instr),
      cursorLoop (rest.length + extra) (before ++ rest) before.length changed examined
        = some ((mapConcat rest).map (fun r =>
            (before ++ r.1, changed || r.2, examined ++ rest))) := by
  induction rest with
  | nil =>
    intro extra before changed examined
    cases extra with
    | zero => simp [cursorLoop, mapConcat]
    | succ n => simp [cursorLoop, mapConcat]
  | cons i rest ih =>
    intro extra before changed examined
    have hfuel : (i :: rest).length + extra = (rest.length + extra) + 1 := by
      simp only [List.length_cons]; omega
    have hlt : before.length < (before ++ i :: rest).length := by
      simp only [List.length_append, List.length_cons]; omega
    have hget : (before ++ i :: rest)[before.length]? = some i := by
      rw [List.getElem?_append_right (Nat.le_refl _)]
      simp
    rw [hfuel, cursorLoop, if_pos hlt, cursorStep_at, hget, mapConcat]
    cases hv : visit i with
    | none => rfl
    | some pc =>
      obtain ⟨placed, c⟩ := pc
      simp only [Option.some_bind]
      have hlen : before.length + placed.length = (before ++ placed).length := by
        simp
      rw [hlen, ih extra (before ++ placed) (changed || c)]
      cases mapConcat rest with
      | none => rfl
      | some r => simp [Bool.or_assoc]

/-- The loop over the blocks with every block held in place returns what
`runOnFunction` returns, and no block runs out of iterations. -/
theorem runInPlace_spec (fn : List BasicBlock) :
    ∀ (changed : Bool),
      runInPlace fn changed
        = some ((runOnFunction fn).map (fun r => (r.1, changed || r.2))) := by
  induction fn with
  | nil =>
    intro changed
    have h0 : runOnFunction [] = some ([], false) := rfl
    simp [runInPlace, h0]
  | cons bb rest ih =>
    intro changed
    have hloop := cursorLoop_spec bb 0 [] changed []
    simp only [Nat.add_zero, List.nil_append, List.length_nil] at hloop
    rw [runInPlace, hloop, runOnFunction_cons, scanBlock_eq_mapConcat]
    cases hb : mapConcat bb with
    | none => rfl
    | some r₁ =>
      obtain ⟨bb', c₁⟩ := r₁
      simp only [Option.map_some', Option.some_bind]
      rw [ih (changed || c₁)]
      cases runOnFunction rest with
      | none => rfl
      | some r₂ => simp [Bool.or_assoc]

/-- C13: iteration discipline.  One iteration of the cursor loop on the block held in
place, with the cursor on an instruction, puts what the visit of that instruction places
in its place and leaves the cursor on the instruction that followed it.  The loop, given
as many iterations as the block has instructions, reaches the end of the block, has
examined exactly the instructions of the original block, each once and in order, and
leaves the block that the pure function makes: every instruction mapped, in order, to
itself or to the replacement store with at most an element address in front, the results
concatenated.  The run over the blocks held in place is `runOnFunction`. -/
theorem C13_iteration_discipline (bb : BasicBlock) (fn : Function) :
    (∀ (before rest : List Instr) (i : Instr),
        cursorStep (before ++ i :: rest) before.length
          = (visit i).bind (fun r =>
              some (before ++ r.1 ++ rest, before.length + r.1.length, r.2)))
    ∧ cursorLoop bb.length bb 0 false []
        = some ((mapConcat bb).map (fun r => (r.1, r.2, bb)))
    ∧ (∀ i placed c, visit i = some (placed, c) →
        placed = [i] ∨
        ∃ sv q, i = Instr.store sv q ∧
          (placed = [Instr.store (uncastedValue sv) (uncastedValue q)] ∨
           ∃ k T, placed = [Instr.inst (Value.gep (uncastedValue sv) (zeros k) T),
              Instr.store (Value.gep (uncastedValue sv) (zeros k) T) (uncastedValue q)]))
    ∧ scanBlock [] false bb = mapConcat bb
    ∧ runInPlace fn false = some (runOnFunction fn) := by
  refine ⟨cursorStep_at, ?_, ?_, scanBlock_eq_mapConcat bb, ?_⟩
  · have hloop := cursorLoop_spec bb 0 [] false []
    simp only [Nat.add_zero, List.nil_append, List.length_nil, Bool.false_or] at hloop
    exact hloop
  · intro i placed c hv
    cases i with
    | inst v =>
      left
      simp only [visit, Option.some.injEq, Prod.mk.injEq] at hv
      exact hv.1.symm
    | store sv q =>
      have hv' : visitStore sv q = some (placed, c) := hv
      rcases visitStore_cases hv' with ⟨hp, _⟩ | ⟨_, _, _, e, _, hp | ⟨k, _, hp⟩⟩
      · exact Or.inl hp
      · exact Or.inr ⟨sv, q, rfl, Or.inl hp.1⟩
      · exact Or.inr ⟨sv, q, rfl, Or.inr ⟨k, e, hp⟩⟩
  · rw [runInPlace_spec]
    cases runOnFunction fn with
    | none => rfl
    | some r => simp

/-! ## Lemmas on termination -/

/-- With as many iterations as the operand chain has casts, the walk of `uncastedValue`
ends, on the uncasted value. -/
theorem uncastedValue_loop_spec (v : Value) :
    ∀ extra, uncastedValue.loop ((operandChain v).length - 1 + extra) v
      = some (uncastedValue v) := by
  induction v with
  | other id ty => intro extra; cases extra <;> rfl
  | gep q idx ty _ => intro extra; cases extra <;> rfl
  | cast op x ty ih =>
    intro extra
    have hlen : (operandChain (Value.cast op x ty)).length - 1 + extra
        = ((operandChain x).length - 1 + extra) + 1 := by
      have hpos : 1 ≤ (operandChain x).length := by
        cases x <;> simp [operandChain]
      simp only [operandChain, List.length_cons]
      omega
    rw [hlen, uncastedValue.loop, uncastedValue]
    by_cases h : op = CastOp.trunc
    · rw [if_pos h, if_pos h]
    · rw [if_neg h, if_neg h]
      exact ih extra

/-- The counted loop returns what the loop returns. -/
theorem gepUpToType_counted_fst (pointer : Value) (elementType type : Ty) (fuel : Nat) :
    ∀ idx, (gepUpToType.counted pointer elementType type fuel idx).1
      = gepUpToType.loop pointer elementType type fuel idx := by
  induction fuel with
  | zero => intro idx; rfl
  | succ fuel ih =>
    intro idx
    rw [gepUpToType.counted, gepUpToType.loop]
    cases getIndexedType elementType idx with
    | none => rfl
    | some t =>
      simp only []
      by_cases hm : t.getPointerTo = type
      · rw [if_pos hm, if_pos hm]
      · rw [if_neg hm, if_neg hm]
        exact ih _

/-- The body of the loop is entered for a list of `j` zeros only while `j` zeros index
the pointee type, so at most once per aggregate level left plus one. -/
theorem gepUpToType_counted_snd (pointer : Value) (elementType type : Ty) (fuel : Nat) :
    ∀ j, 1 ≤ j →
      (gepUpToType.counted pointer elementType type fuel (zeros j)).2
        ≤ elementType.nesting + 2 - j := by
  induction fuel with
  | zero =>
    intro j _
    simp [gepUpToType.counted]
  | succ fuel ih =>
    intro j hj
    rw [gepUpToType.counted]
    cases hidx : getIndexedType elementType (zeros j) with
    | none => simp
    | some t =>
      have hb := getIndexedType_zeros_le_nesting hidx
      simp only []
      by_cases hm : t.getPointerTo = type
      · rw [if_pos hm]
        simp only []
        omega
      · rw [if_neg hm, zeros_succ]
        have := ih (j + 1) (by omega)
        simp only []
        omega

/-- C14: `gepUpToType` computes the shortest all-zero sub-object path.  On a value `p` of
pointer type with pointee `e` and a pointer type `T` it returns (it does not abort); a
returned instruction is the element address rooted at `p` over `k` zeros, of result type
`T`, where `k ≥ 1` is the least length such that `k` zeros index `e` to a type whose
pointer type is `T`; an instruction is returned whenever such a `k` exists, and null is
returned exactly when none exists. -/
theorem C14_gepUpToType_shortest (p : Value) (e T : Ty) (hp : p.getType = Ty.ptr e)
    (hT : T.isPointerTy = true) :
    (∃ r, gepUpToType p T = some r)
    ∧ (∀ g, gepUpToType p T = some (some g) →
        ∃ k t, 1 ≤ k ∧ g = Value.gep p (zeros k) T ∧ g.getType = T
          ∧ getIndexedType e (zeros k) = some t ∧ t.getPointerTo = T
          ∧ ∀ j, 1 ≤ j → j < k →
              ¬ ∃ u, getIndexedType e (zeros j) = some u ∧ u.getPointerTo = T)
    ∧ ((∃ k t, 1 ≤ k ∧ getIndexedType e (zeros k) = some t ∧ t.getPointerTo = T) →
        ∃ g, gepUpToType p T = some (some g))
    ∧ (gepUpToType p T = some none ↔
        ¬ ∃ k t, 1 ≤ k ∧ getIndexedType e (zeros k) = some t ∧ t.getPointerTo = T) := by
  have hsome : ∀ g, gepUpToType p T = some (some g) →
      ∃ k t, 1 ≤ k ∧ g = Value.gep p (zeros k) T ∧ g.getType = T
        ∧ getIndexedType e (zeros k) = some t ∧ t.getPointerTo = T
        ∧ ∀ j, 1 ≤ j → j < k →
            ¬ ∃ u, getIndexedType e (zeros j) = some u ∧ u.getPointerTo = T := by
    intro g hg
    obtain ⟨e', k, t, hp', hk1, hgeq, hk, ht, hmin⟩ := gepUpToType_some hg
    have hee : e' = e := by
      rw [hp] at hp'
      exact (Ty.ptr.inj hp').symm
    subst hee
    refine ⟨k, t, hk1, hgeq, ?_, hk, ht, ?_⟩
    · rw [hgeq]; rfl
    · rintro j hj1 hjk ⟨u, hu, hut⟩
      exact hmin j hj1 hjk u hu hut
  refine ⟨?_, hsome, ?_, ?_⟩
  · unfold gepUpToType
    rw [if_pos hT]
    simp only [hp]
    exact ⟨_, rfl⟩
  · rintro ⟨k, t, hk1, hk, ht⟩
    exact gepUpToType_complete hp hT hk1 hk ht
  · constructor
    · rintro hnull ⟨k, t, hk1, hk, ht⟩
      obtain ⟨g, hg⟩ := gepUpToType_complete hp hT hk1 hk ht
      rw [hnull] at hg
      simp at hg
    · intro hno
      apply gepUpToType_null hp hT
      intro k t hk1 hk ht
      exact hno ⟨k, t, hk1, hk, ht⟩

/-- C14 at `{ i32 }* %s` and the type `i32*`. -/
theorem C14_gepUpToType_shortest_witness :
    (∃ r, gepUpToType subS (Ty.ptr i32) = some r)
    ∧ (∀ g, gepUpToType subS (Ty.ptr i32) = some (some g) →
        ∃ k t, 1 ≤ k ∧ g = Value.gep subS (zeros k) (Ty.ptr i32) ∧ g.getType = Ty.ptr i32
          ∧ getIndexedType (Ty.struct (TyList.ofList [i32])) (zeros k) = some t
          ∧ t.getPointerTo = Ty.ptr i32
          ∧ ∀ j, 1 ≤ j → j < k →
              ¬ ∃ u, getIndexedType (Ty.struct (TyList.ofList [i32])) (zeros j) = some u
                ∧ u.getPointerTo = Ty.ptr i32)
    ∧ ((∃ k t, 1 ≤ k ∧ getIndexedType (Ty.struct (TyList.ofList [i32])) (zeros k) = some t
          ∧ t.getPointerTo = Ty.ptr i32) →
        ∃ g, gepUpToType subS (Ty.ptr i32) = some (some g))
    ∧ (gepUpToType subS (Ty.ptr i32) = some none ↔
        ¬ ∃ k t, 1 ≤ k ∧ getIndexedType (Ty.struct (TyList.ofList [i32])) (zeros k) = some t
          ∧ t.getPointerTo = Ty.ptr i32) :=
  C14_gepUpToType_shortest subS (Ty.struct (TyList.ofList [i32])) (Ty.ptr i32) rfl rfl

/-- C15: termination.  The walk of `uncastedValue` ends within as many iterations as the
operand chain of the value has casts, on the uncasted value.  The body of the loop of
`gepUpToType` is entered at most once per aggregate level of the pointee type along its
first elements, plus one, whatever bound the loop is given, so that a larger bound than
that does not change its result: one more zero descends one aggregate level or is not
indexable.  The run over the blocks held in place, each block given as many iterations as
it has instructions, reaches the end of every block and returns what `runOnFunction`
returns. -/
theorem C15_termination (v pointer : Value) (elementType type : Ty) (fn : Function) :
    (∀ extra, uncastedValue.loop ((operandChain v).length - 1 + extra) v
        = some (uncastedValue v))
    ∧ (∀ fuel,
        (gepUpToType.counted pointer elementType type fuel [zero]).1
            = gepUpToType.loop pointer elementType type fuel [zero]
        ∧ (gepUpToType.counted pointer elementType type fuel [zero]).2
            ≤ elementType.nesting + 1)
    ∧ (∀ extra,
        gepUpToType.loop pointer elementType type (elementType.nesting + 1 + extra) [zero]
          = gepUpToType.loop pointer elementType type (elementType.nesting + 1) [zero])
    ∧ (∀ (agg t : Ty), getTypeAtIndex agg zero = some t → agg.nesting = t.nesting + 1)
    ∧ runInPlace fn false = some (runOnFunction fn) := by
  refine ⟨uncastedValue_loop_spec v, ?_, gepUpToType_loop_fuel pointer elementType type,
    fun agg t h => getTypeAtIndex_nesting h rfl, ?_⟩
  · intro fuel
    refine ⟨gepUpToType_counted_fst pointer elementType type fuel [zero], ?_⟩
    have h := gepUpToType_counted_snd pointer elementType type fuel 1 (le_refl _)
    rw [zeros_one] at h
    omega
  · rw [runInPlace_spec]
    cases runOnFunction fn with
    | none => rfl
    | some r => simp

/-- C16: `runOnFunction` is idempotent.  When a run returns, a second run on its output
returns false and leaves the output as it is: the pointer operand of every replacement
store is its own uncasted value, so the visit of the replacement store leaves it alone, and
a store that the first run left alone is left alone again. -/
theorem C16_runOnFunction_idempotent (fn fn' : Function) (c : Bool)
    (h : runOnFunction fn = some (fn', c)) :
    runOnFunction fn' = some (fn', false)
    ∧ (∀ bb ∈ fn, ∀ sv q, Instr.store sv q ∈ bb → ∀ placed,
        visitStore sv q = some (placed, true) →
        ∀ sv' q', Instr.store sv' q' ∈ placed →
          uncastedValue q' = q' ∧ visitStore sv' q' = some ([Instr.store sv' q'], false))
    ∧ (∀ bb ∈ fn, ∀ sv q, Instr.store sv q ∈ bb → ∀ placed,
        visitStore sv q = some (placed, false) →
        placed = [Instr.store sv q]
          ∧ ∃ bb' ∈ fn', Instr.store sv q ∈ bb'
              ∧ visitStore sv q = some ([Instr.store sv q], false)) := by
  have hfix : ∀ x : Value, uncastedValue (uncastedValue x) = uncastedValue x := fun x =>
    (uncastedValue_eq_self_iff (uncastedValue x)).mpr (uncastedValue_result x)
  refine ⟨runOnFunction_again fn fn' c h, ?_, ?_⟩
  · intro bb _ sv q _ placed hvis sv' q' hm
    have hq' : uncastedValue q' = q' := by
      rcases visitStore_cases hvis with ⟨_, hc⟩ | ⟨_, _, _, e, _, hp | ⟨k, _, hp⟩⟩
      · exact absurd hc (by simp)
      · rw [hp.1] at hm
        rw [(Instr.store.inj (List.mem_singleton.mp hm)).2]
        exact hfix q
      · rw [hp] at hm
        simp only [List.mem_cons, List.mem_singleton, List.not_mem_nil, or_false] at hm
        rcases hm with e' | e'
        · exact Instr.noConfusion e'
        · rw [(Instr.store.inj e').2]
          exact hfix q
    exact ⟨hq', visitStore_ineligible (Or.inl hq'.symm)⟩
  · intro bb hbb sv q hm placed hvis
    have hp := visitStore_unchanged hvis
    subst hp
    refine ⟨rfl, ?_⟩
    -- the store is still in the block that stands for its block
    have hblocks := runOnFunction_blocks fn fn' c h
    have hex : ∀ (l : List BasicBlock) (l' : List BasicBlock),
        List.Forall₂ (fun b b' => ∃ c', scanBlock [] false b = some (b', c')) l l' →
        bb ∈ l → ∃ b' ∈ l', ∃ c', scanBlock [] false bb = some (b', c') := by
      intro l l' hf
      induction hf with
      | nil => intro hmem; exact absurd hmem (List.not_mem_nil _)
      | @cons b b' t t' hb _ ih =>
        intro hmem
        rcases List.mem_cons.mp hmem with e | e
        · subst e
          obtain ⟨c', hc'⟩ := hb
          exact ⟨b', List.mem_cons_self _ _, c', hc'⟩
        · obtain ⟨x, hx, hc'⟩ := ih e
          exact ⟨x, List.mem_cons_of_mem _ hx, hc'⟩
    obtain ⟨bb', hbb', c', hscan⟩ := hex fn fn' hblocks hbb
    refine ⟨bb', hbb', ?_, hvis⟩
    obtain ⟨pre, post, hsplit⟩ := List.append_of_mem hm
    rw [hsplit] at hscan
    obtain ⟨pre', _, placed, _, post', _, _, hv, _, hout, _⟩ :=
      (scanBlock_around pre post sv q bb' c').mp hscan
    rw [hvis] at hv
    have hpl : placed = [Instr.store sv q] := ((Prod.mk.inj (Option.some.inj hv)).1).symm
    rw [hout, hpl]
    simp

/-- C16 at the motivating pattern. -/
theorem C16_runOnFunction_idempotent_witness :
    runOnFunction [[Instr.inst field0, Instr.inst field1, Instr.inst patX, Instr.inst patY,
        Instr.store field0 field1]]
      = some ([[Instr.inst field0, Instr.inst field1, Instr.inst patX, Instr.inst patY,
        Instr.store field0 field1]], false)
    ∧ (∀ bb ∈ [patternBlock], ∀ sv q, Instr.store sv q ∈ bb → ∀ placed,
        visitStore sv q = some (placed, true) →
        ∀ sv' q', Instr.store sv' q' ∈ placed →
          uncastedValue q' = q' ∧ visitStore sv' q' = some ([Instr.store sv' q'], false))
    ∧ (∀ bb ∈ [patternBlock], ∀ sv q, Instr.store sv q ∈ bb → ∀ placed,
        visitStore sv q = some (placed, false) →
        placed = [Instr.store sv q]
          ∧ ∃ bb' ∈ [[Instr.inst field0, Instr.inst field1, Instr.inst patX,
                Instr.inst patY, Instr.store field0 field1]],
              Instr.store sv q ∈ bb'
              ∧ visitStore sv q = some ([Instr.store sv q], false)) :=
  C16_runOnFunction_idempotent [patternBlock] _ true (by decide)

/-- C17: frame.  When the run returns, the output has as many blocks as the input, in the
same order, and every output block is the concatenation of one piece per instruction of
its input block, in order: the instruction itself, or, for a store both of whose operands
differ from their uncasted values, the store of the uncasted value or of an element
address rooted at it to the uncasted pointer, with that element address in front.  So
every instruction that is not a replaced store (the casts that fed a replaced store
included) stays in its block, in the same order, as it was. -/
theorem C17_frame (fn fn' : Function) (c : Bool) (h : runOnFunction fn = some (fn', c)) :
    fn'.length = fn.length
    ∧ List.Forall₂ (fun bb bb' =>
        (∃ pieces : List (List Instr), bb' = pieces.flatten ∧
          List.Forall₂ (fun i piece =>
            piece = [i] ∨
            ∃ sv q, i = Instr.store sv q ∧ q ≠ uncastedValue q ∧ sv ≠ uncastedValue sv ∧
              (piece = [Instr.store (uncastedValue sv) (uncastedValue q)] ∨
               ∃ k T, piece = [Instr.inst (Value.gep (uncastedValue sv) (zeros k) T),
                  Instr.store (Value.gep (uncastedValue sv) (zeros k) T)
                    (uncastedValue q)]))
            bb pieces)
        ∧ List.Sublist (bb.filter (fun i => !i.isReplaced)) bb') fn fn' := by
  have hblocks := runOnFunction_blocks fn fn' c h
  refine ⟨hblocks.length_eq.symm, ?_⟩
  refine List.Forall₂.imp ?_ hblocks
  rintro bb bb' ⟨c', hscan⟩
  rw [scanBlock_eq_mapConcat] at hscan
  obtain ⟨pieces, hout, hf⟩ := mapConcat_pieces bb bb' c' hscan
  obtain ⟨h1, h2⟩ := pieces_frame hf
  exact ⟨⟨pieces, hout, h1⟩, by rw [hout]; exact h2⟩

/-- C17 at the motivating pattern. -/
theorem C17_frame_witness :
    [[Instr.inst field0, Instr.inst field1, Instr.inst patX, Instr.inst patY,
        Instr.store field0 field1]].length = [patternBlock].length
    ∧ List.Forall₂ (fun bb bb' =>
        (∃ pieces : List (List Instr), bb' = pieces.flatten ∧
          List.Forall₂ (fun i piece =>
            piece = [i] ∨
            ∃ sv q, i = Instr.store sv q ∧ q ≠ uncastedValue q ∧ sv ≠ uncastedValue sv ∧
              (piece = [Instr.store (uncastedValue sv) (uncastedValue q)] ∨
               ∃ k T, piece = [Instr.inst (Value.gep (uncastedValue sv) (zeros k) T),
                  Instr.store (Value.gep (uncastedValue sv) (zeros k) T)
                    (uncastedValue q)]))
            bb pieces)
        ∧ List.Sublist (bb.filter (fun i => !i.isReplaced)) bb')
      [patternBlock]
      [[Instr.inst field0, Instr.inst field1, Instr.inst patX, Instr.inst patY,
        Instr.store field0 field1]] :=
  C17_frame [patternBlock] _ true (by decide)

/-- C18: `uncastedValue` is idempotent, and it is the identity exactly on the values that
are not a cast instruction or are a `trunc`. -/
theorem C18_uncastedValue_idempotent (v : Value) :
    uncastedValue (uncastedValue v) = uncastedValue v
    ∧ (uncastedValue v = v ↔ (v.isCast = false ∨ v.isTrunc = true)) :=
  ⟨(uncastedValue_eq_self_iff (uncastedValue v)).mpr (uncastedValue_result v),
   uncastedValue_eq_self_iff v⟩

/-! ## Lemmas on `AstBranchCombine` -/

theorem isCombined_append : ∀ (a b : StatementList),
    a.isCombined = true → b.isCombined = true → (a.append b).isCombined = true
  | .nil, b => by
    intro _ hb
    exact hb
  | .cons s rest, b => by
    intro ha hb
    simp only [StatementList.isCombined, Bool.and_eq_true] at ha
    simp only [StatementList.append, StatementList.isCombined, Bool.and_eq_true]
    exact ⟨ha.1, isCombined_append rest b ha.2 hb⟩

theorem noSequence_append : ∀ (a b : StatementList),
    a.noSequence = true → b.noSequence = true → (a.append b).noSequence = true
  | .nil, b => by
    intro _ hb
    exact hb
  | .cons (.other id) rest, b => by
    intro ha hb
    simp only [StatementList.noSequence] at ha
    simp only [StatementList.append, StatementList.noSequence]
    exact noSequence_append rest b ha hb
  | .cons (.ifElse c t e) rest, b => by
    intro ha hb
    simp only [StatementList.noSequence] at ha
    simp only [StatementList.append, StatementList.noSequence]
    exact noSequence_append rest b ha hb
  | .cons (.sequence cs) rest, b => by
    intro ha _
    simp [StatementList.noSequence] at ha

/-- Flattening combined children gives combined children none of which is a sequence. -/
theorem flattenChildren_isCombined : ∀ (l : StatementList), l.isCombined = true →
    (flattenChildren l).isCombined = true ∧ (flattenChildren l).noSequence = true
  | .nil => by
    intro _
    exact ⟨rfl, rfl⟩
  | .cons (.other id) rest => by
    intro h
    simp only [StatementList.isCombined, Bool.and_eq_true] at h
    obtain ⟨h1, h2⟩ := flattenChildren_isCombined rest h.2
    simp only [flattenChildren, StatementList.isCombined, StatementList.noSequence,
      Bool.and_eq_true]
    exact ⟨⟨h.1, h1⟩, h2⟩
  | .cons (.ifElse c t e) rest => by
    intro h
    simp only [StatementList.isCombined, Bool.and_eq_true] at h
    obtain ⟨h1, h2⟩ := flattenChildren_isCombined rest h.2
    simp only [flattenChildren, StatementList.isCombined, StatementList.noSequence,
      Bool.and_eq_true]
    exact ⟨⟨h.1, h1⟩, h2⟩
  | .cons (.sequence cs) rest => by
    intro h
    simp only [StatementList.isCombined, Statement.isCombined, Bool.and_eq_true] at h
    obtain ⟨h1, h2⟩ := flattenChildren_isCombined rest h.2
    simp only [flattenChildren]
    exact ⟨isCombined_append cs _ h.1.1 h1, noSequence_append cs _ h.1.2.1 h2⟩

/-- Collapsing combined children none of which is a sequence gives a combined statement. -/
theorem collapse_isCombined : ∀ (l : StatementList), l.isCombined = true →
    l.noSequence = true → (collapse l).isCombined = true
  | .nil => by
    intro _ _
    rfl
  | .cons s .nil => by
    intro h _
    simp only [StatementList.isCombined, Bool.and_eq_true] at h
    exact h.1
  | .cons s (.cons s' rest) => by
    intro h hn
    simp only [collapse, Statement.isCombined, Bool.and_eq_true, decide_eq_true_eq]
    refine ⟨h, hn, ?_⟩
    simp only [StatementList.length]
    omega

/-- The rule for `IfElse` gives a combined statement from combined branches. -/
theorem combineIfElse_isCombined (cond : Nat) (t : Statement) (e : ElseBranch)
    (ht : t.isCombined = true) (he : e.isCombined = true) :
    (combineIfElse cond t e).isCombined = true := by
  unfold combineIfElse
  by_cases h1 : e = ElseBranch.present t
  · rw [if_pos h1]
    exact ht
  · rw [if_neg h1]
    by_cases h2 : t.isEmpty = true ∧ e.isEmpty = true
    · rw [if_pos h2]
      rfl
    · rw [if_neg h2]
      simp only [Statement.isCombined, Bool.and_eq_true, decide_eq_true_eq,
        Bool.not_eq_true', Bool.and_eq_false_iff]
      refine ⟨ht, he, h1, ?_⟩
      by_cases h3 : t.isEmpty = true
      · right
        cases h4 : e.isEmpty with
        | false => rfl
        | true => exact absurd ⟨h3, h4⟩ h2
      · left
        simpa using h3

mutual
/-- The pass returns a combined statement. -/
theorem combineBranches_isCombined : ∀ (s : Statement),
    (combineBranches s).isCombined = true
  | .other id => rfl
  | .sequence children => by
    rw [combineBranches, combineSequence]
    obtain ⟨h1, h2⟩ := flattenChildren_isCombined _ (combineChildren_isCombined children)
    exact collapse_isCombined _ h1 h2
  | .ifElse cond t e => by
    rw [combineBranches]
    exact combineIfElse_isCombined cond _ _ (combineBranches_isCombined t)
      (combineElse_isCombined e)
/-- The pass returns combined children. -/
theorem combineChildren_isCombined : ∀ (l : StatementList),
    (combineChildren l).isCombined = true
  | .nil => rfl
  | .cons s rest => by
    rw [combineChildren]
    simp only [StatementList.isCombined, Bool.and_eq_true]
    exact ⟨combineBranches_isCombined s, combineChildren_isCombined rest⟩
/-- The pass returns a combined "else" branch. -/
theorem combineElse_isCombined : ∀ (e : ElseBranch), (combineElse e).isCombined = true
  | .absent => rfl
  | .present s => by
    rw [combineElse]
    exact combineBranches_isCombined s
end

theorem flattenChildren_noSequence : ∀ (l : StatementList), l.noSequence = true →
    flattenChildren l = l
  | .nil => by
    intro _
    rfl
  | .cons (.other id) rest => by
    intro h
    simp only [StatementList.noSequence] at h
    simp only [flattenChildren]
    rw [flattenChildren_noSequence rest h]
  | .cons (.ifElse c t e) rest => by
    intro h
    simp only [StatementList.noSequence] at h
    simp only [flattenChildren]
    rw [flattenChildren_noSequence rest h]
  | .cons (.sequence cs) rest => by
    intro h
    simp [StatementList.noSequence] at h

theorem collapse_of_length : ∀ (l : StatementList), l.length ≠ 1 →
    collapse l = Statement.sequence l
  | .nil => by
    intro _
    rfl
  | .cons s .nil => by
    intro h
    exact absurd rfl h
  | .cons s (.cons s' rest) => by
    intro _
    rfl

mutual
/-- The pass leaves a combined statement as it is. -/
theorem combineBranches_of_isCombined : ∀ (s : Statement), s.isCombined = true →
    combineBranches s = s
  | .other id => by
    intro _
    rfl
  | .sequence children => by
    intro h
    simp only [Statement.isCombined, Bool.and_eq_true, decide_eq_true_eq] at h
    rw [combineBranches, combineChildren_of_isCombined children h.1, combineSequence,
      flattenChildren_noSequence children h.2.1, collapse_of_length children h.2.2]
  | .ifElse cond t e => by
    intro h
    simp only [Statement.isCombined, Bool.and_eq_true, decide_eq_true_eq,
      Bool.not_eq_true', Bool.and_eq_false_iff] at h
    obtain ⟨ht, he, hne, hemp⟩ := h
    rw [combineBranches, combineBranches_of_isCombined t ht, combineElse_of_isCombined e he]
    unfold combineIfElse
    rw [if_neg hne, if_neg]
    rintro ⟨h1, h2⟩
    rcases hemp with h' | h'
    · rw [h1] at h'; exact absurd h' (by simp)
    · rw [h2] at h'; exact absurd h' (by simp)
/-- The pass leaves combined children as they are. -/
theorem combineChildren_of_isCombined : ∀ (l : StatementList), l.isCombined = true →
    combineChildren l = l
  | .nil => by
    intro _
    rfl
  | .cons s rest => by
    intro h
    simp only [StatementList.isCombined, Bool.and_eq_true] at h
    rw [combineChildren, combineBranches_of_isCombined s h.1,
      combineChildren_of_isCombined rest h.2]
/-- The pass leaves a combined "else" branch as it is. -/
theorem combineElse_of_isCombined : ∀ (e : ElseBranch), e.isCombined = true →
    combineElse e = e
  | .absent => by
    intro _
    rfl
  | .present s => by
    intro h
    rw [combineElse, combineBranches_of_isCombined s h]
end

/-- The flatten, collapse and empty-branch laws of the specification, on examples:
`{ { s1; s2 }; { s3 } }` becomes `{ s1; s2; s3 }`, `{ s1 }` becomes `s1`, and
`if (c) { } else { }` becomes the empty statement. -/
theorem combineBranches_laws :
    combineBranches nestedSequence
        = Statement.sequence (StatementList.ofList
            [Statement.other 1, Statement.other 2, Statement.other 3])
    ∧ combineBranches (Statement.sequence (StatementList.ofList [Statement.other 1]))
        = Statement.other 1
    ∧ combineBranches (Statement.ifElse 0 (Statement.sequence StatementList.nil)
          (ElseBranch.present (Statement.sequence StatementList.nil)))
        = Statement.sequence StatementList.nil := by
  decide

/-- C11: idempotence of `BranchCombinePass`.  For every function node, running the pass
on the result of a run gives that result again, and so does `combineBranches` on every
statement: the second application changes nothing. -/
theorem C11_branchCombine_idempotent (fn : FunctionNode) (s : Statement) :
    doRun (doRun fn) = doRun fn
    ∧ combineBranches (combineBranches s) = combineBranches s := by
  refine ⟨?_, combineBranches_of_isCombined _ (combineBranches_isCombined s)⟩
  simp only [doRun]
  rw [combineBranches_of_isCombined _ (combineBranches_isCombined fn.body)]

/-- The branch-dedup rule keeps the conditionals of the branch: for `S` the statement
`if (c7) s1 else s2`, the pass takes `IfElse(c7, S, S)` to `S`. -/
theorem combineBranches_dedup_keeps_inner :
    combineBranches dedupOuter = combineBranches dedupInner
      ∧ combineBranches dedupOuter = dedupInner
      ∧ (combineBranches dedupOuter).hasIfElse = true
      ∧ (combineBranches dedupOuter).usesCond 7 = true := by
  decide

theorem weigh_append (w : Nat → Nat) : ∀ (a b : StatementList),
    (a.append b).weigh w = a.weigh w + b.weigh w
  | .nil, b => by
    simp [StatementList.append, StatementList.weigh]
  | .cons s rest, b => by
    simp only [StatementList.append, StatementList.weigh]
    rw [weigh_append w rest b]
    omega

/-- Flattening neither adds nor removes an `IfElse` node. -/
theorem weigh_flattenChildren (w : Nat → Nat) : ∀ (l : StatementList),
    (flattenChildren l).weigh w = l.weigh w
  | .nil => rfl
  | .cons (.other id) rest => by
    simp only [flattenChildren, StatementList.weigh]
    rw [weigh_flattenChildren w rest]
  | .cons (.ifElse c t e) rest => by
    simp only [flattenChildren, StatementList.weigh]
    rw [weigh_flattenChildren w rest]
  | .cons (.sequence cs) rest => by
    simp only [flattenChildren, StatementList.weigh, Statement.weigh]
    rw [weigh_append, weigh_flattenChildren w rest]

/-- Collapsing neither adds nor removes an `IfElse` node. -/
theorem weigh_collapse (w : Nat → Nat) : ∀ (l : StatementList),
    (collapse l).weigh w = l.weigh w
  | .nil => rfl
  | .cons s .nil => by
    simp [collapse, StatementList.weigh]
  | .cons s (.cons s' rest) => by
    simp [collapse, Statement.weigh]

/-- The rule for `IfElse` gives at most the node over its branches. -/
theorem weigh_combineIfElse (w : Nat → Nat) (cond : Nat) (t : Statement) (e : ElseBranch) :
    (combineIfElse cond t e).weigh w ≤ w cond + (t.weigh w + e.weigh w) := by
  unfold combineIfElse
  by_cases h1 : e = ElseBranch.present t
  · rw [if_pos h1]
    omega
  · rw [if_neg h1]
    by_cases h2 : t.isEmpty = true ∧ e.isEmpty = true
    · rw [if_pos h2]
      simp [Statement.weigh, StatementList.weigh]
    · rw [if_neg h2]
      simp [Statement.weigh]

mutual
/-- The pass adds no `IfElse` node: the combined form of a statement has at most the
weight of the statement. -/
theorem weigh_combineBranches (w : Nat → Nat) : ∀ (s : Statement),
    (combineBranches s).weigh w ≤ s.weigh w
  | .other id => by
    simp [combineBranches]
  | .sequence children => by
    rw [combineBranches, combineSequence, weigh_collapse, weigh_flattenChildren]
    simp only [Statement.weigh]
    exact weigh_combineChildren w children
  | .ifElse cond t e => by
    rw [combineBranches]
    have h1 := weigh_combineIfElse w cond (combineBranches t) (combineElse e)
    have h2 := weigh_combineBranches w t
    have h3 := weigh_combineElse w e
    simp only [Statement.weigh]
    omega
/-- The pass adds no `IfElse` node to the children. -/
theorem weigh_combineChildren (w : Nat → Nat) : ∀ (l : StatementList),
    (combineChildren l).weigh w ≤ l.weigh w
  | .nil => by
    simp [combineChildren]
  | .cons s rest => by
    rw [combineChildren]
    have h1 := weigh_combineBranches w s
    have h2 := weigh_combineChildren w rest
    simp only [StatementList.weigh]
    omega
/-- The pass adds no `IfElse` node to the "else" branch. -/
theorem weigh_combineElse (w : Nat → Nat) : ∀ (e : ElseBranch),
    (combineElse e).weigh w ≤ e.weigh w
  | .absent => by
    simp [combineElse]
  | .present s => by
    rw [combineElse]
    simp only [ElseBranch.weigh]
    exact weigh_combineBranches w s
end

/-- C12: branch-dedup law.  For every condition and all structurally equal statements `S`
and `S'`, `combineBranches` takes `IfElse(cond, S, S')` to the combined form of `S` alone.
The `IfElse` node and its use of `cond` do not remain: the result has no more `IfElse`
nodes than `S` has, and no more of them on `cond` than `S` has, hence fewer of each than
`IfElse(cond, S, S')`. -/
theorem C12_branch_dedup (cond : Nat) (S S' : Statement) (h : S = S') :
    combineBranches (Statement.ifElse cond S (ElseBranch.present S')) = combineBranches S
    ∧ (combineBranches (Statement.ifElse cond S (ElseBranch.present S'))).ifElseCount
        ≤ S.ifElseCount
    ∧ (combineBranches (Statement.ifElse cond S (ElseBranch.present S'))).condCount cond
        ≤ S.condCount cond
    ∧ (combineBranches (Statement.ifElse cond S (ElseBranch.present S'))).ifElseCount
        < (Statement.ifElse cond S (ElseBranch.present S')).ifElseCount
    ∧ (combineBranches (Statement.ifElse cond S (ElseBranch.present S'))).condCount cond
        < (Statement.ifElse cond S (ElseBranch.present S')).condCount cond := by
  subst h
  have hd : combineBranches (Statement.ifElse cond S (ElseBranch.present S))
      = combineBranches S := by
    rw [combineBranches, combineElse]
    unfold combineIfElse
    rw [if_pos rfl]
  have h1 := weigh_combineBranches (fun _ => 1) S
  have h2 := weigh_combineBranches (fun c => if c = cond then 1 else 0) S
  rw [hd]
  refine ⟨rfl, h1, h2, ?_, ?_⟩
  · simp only [Statement.ifElseCount, Statement.weigh, ElseBranch.weigh] at h1 ⊢
    omega
  · simp only [Statement.condCount, Statement.weigh, ElseBranch.weigh, if_true] at h2 ⊢
    omega

/-- C12 at `S` the statement `if (c7) s1 else s2` in both branches of an `IfElse` on
`c7`. -/
theorem C12_branch_dedup_witness :
    combineBranches (Statement.ifElse 7 dedupInner (ElseBranch.present dedupInner))
        = combineBranches dedupInner
    ∧ (combineBranches
          (Statement.ifElse 7 dedupInner (ElseBranch.present dedupInner))).ifElseCount
        ≤ dedupInner.ifElseCount
    ∧ (combineBranches
          (Statement.ifElse 7 dedupInner (ElseBranch.present dedupInner))).condCount 7
        ≤ dedupInner.condCount 7
    ∧ (combineBranches
          (Statement.ifElse 7 dedupInner (ElseBranch.present dedupInner))).ifElseCount
        < (Statement.ifElse 7 dedupInner (ElseBranch.present dedupInner)).ifElseCount
    ∧ (combineBranches
          (Statement.ifElse 7 dedupInner (ElseBranch.present dedupInner))).condCount 7
        < (Statement.ifElse 7 dedupInner (ElseBranch.present dedupInner)).condCount 7 :=
  C12_branch_dedup 7 dedupInner dedupInner rfl

end Fcd
